import Mathlib

/-!
Verification development for the Minichain proof-of-work blockchain node
(Go sources: packages blockchain, evm, rlp, trie, p2p, utils).

Shallow embedding conventions:
* Go `float64` balances/amounts are modelled as exact rationals (`ℚ`); the
  properties verified here are control-flow and bookkeeping properties whose
  statements do not depend on IEEE-754 rounding, and all concrete inputs used
  in witnesses/counterexamples evaluate exactly in both representations.
* Go `int` is `ℤ`, Go `uint64` is `ℕ` (the gas quantities involved never
  approach 2^64 on the inputs the claims quantify over, and Go slice lengths
  are nonnegative).
* Go maps are modelled as functions into `Option`; a `nil` pointer/interface
  entry is `none`.  Go deep copies (snapshots) are the identity in this pure
  setting, which is exactly the value semantics the deep copy exists to buy.
* Fallible Go functions returning `error` become `Except String`; functions
  that mutate a receiver return the new value of the receiver.
* External collaborators that the spec places out of scope (SHA-256 /
  Keccak-256, JSON marshalling, the ECDSA key layer, the on-disk KV store)
  are universally-quantified function parameters: every theorem below holds
  for an arbitrary interpretation of them.
-/

/-! ## blockchain/account.go -/

/-- Account mirrors `Account` (blockchain/account.go): address, float64
balance (modelled as `ℚ`), int nonce. -/
structure Account where
  Address : String
  Balance : ℚ
  Nonce : ℤ
  deriving DecidableEq, Repr

/-- AccountState mirrors `AccountState`: the in-memory map
`map[string]*Account`, modelled as a function into `Option Account`. -/
structure AccountState where
  Accounts : String → Option Account

namespace AccountState

/-- Mirrors `GetAccount`: returns the account, creating it with zero balance
and zero nonce if absent (and returns the possibly-extended state, since the
Go method inserts the fresh account into the map). -/
def GetAccount (as : AccountState) (address : String) : Account × AccountState :=
  match as.Accounts address with
  | some account => (account, as)
  | none =>
      let account : Account := { Address := address, Balance := 0, Nonce := 0 }
      (account, ⟨fun a => if a = address then some account else as.Accounts a⟩)

/-- Mirrors `GetBalance`. -/
def GetBalance (as : AccountState) (address : String) : ℚ :=
  ((as.GetAccount address).1).Balance

/-- Writes an account value back through the map (models mutation through the
`*Account` pointer returned by `GetAccount`). -/
def setAccount (as : AccountState) (address : String) (acc : Account) : AccountState :=
  ⟨fun a => if a = address then some acc else as.Accounts a⟩

/-- Mirrors `AddBalance`: `account.Balance += amount` on the (possibly
freshly created) account. -/
def AddBalance (as : AccountState) (address : String) (amount : ℚ) : AccountState :=
  let g := as.GetAccount address
  g.2.setAccount address { g.1 with Balance := g.1.Balance + amount }

/-- Mirrors `SubtractBalance`: errors when `account.Balance < amount`,
otherwise `account.Balance -= amount`. -/
def SubtractBalance (as : AccountState) (address : String) (amount : ℚ) :
    Except String AccountState :=
  let g := as.GetAccount address
  if g.1.Balance < amount then
    .error "saldo insuficiente"
  else
    .ok (g.2.setAccount address { g.1 with Balance := g.1.Balance - amount })

/-- Mirrors `IncrementNonce`: `account.Nonce++`. -/
def IncrementNonce (as : AccountState) (address : String) : AccountState :=
  let g := as.GetAccount address
  g.2.setAccount address { g.1 with Nonce := g.1.Nonce + 1 }

end AccountState

/-- StateSnapshot mirrors `StateSnapshot`: a copy of the account map. -/
structure StateSnapshot where
  Accounts : String → Option Account

/-- Mirrors `CreateSnapshot`: iterates the map copying every account by value
(the deep copy is the identity in the pure embedding). -/
def AccountState.CreateSnapshot (as : AccountState) : StateSnapshot :=
  ⟨fun a => as.Accounts a⟩

/-- Mirrors `RevertToSnapshot`: `for address, account := range snapshot.Accounts
\x7b as.Accounts[address] = copy \x7d` — every account present in the snapshot is
written back; accounts absent from the snapshot are NOT deleted from the
current map. -/
def AccountState.RevertToSnapshot (as : AccountState) (snapshot : StateSnapshot) :
    AccountState :=
  ⟨fun a => match snapshot.Accounts a with
            | some account => some account
            | none => as.Accounts a⟩

/-- The empty account state (`NewAccountState`). -/
def AccountState.new : AccountState := ⟨fun _ => none⟩

/-! ## evm: stack.go / memory.go / storage.go (src/unnamed/part_005, part_006) -/

/-- Stack mirrors `Stack`: a slice of `*big.Int` (arbitrary-precision
integers, `ℤ`); the top of the stack is the END of the list, matching the Go
slice where `Push` appends and `Pop` removes the last element. -/
structure Stack where
  data : List ℤ
  deriving DecidableEq, Repr

namespace Stack

/-- Mirrors `NewStack`. -/
def new : Stack := ⟨[]⟩

/-- Mirrors `Push`: errors with a stack-overflow error when the stack already
holds 1024 elements, otherwise appends. -/
def Push (s : Stack) (value : ℤ) : Except String Stack :=
  if 1024 ≤ s.data.length then
    .error "stack overflow: maximo 1024 elementos"
  else
    .ok ⟨s.data ++ [value]⟩

/-- Models a Go call site that invokes `Push` as a statement and DISCARDS the
returned error (as every opcode handler in evm/interpreter.go does): on
overflow the stack is left unchanged and execution continues. -/
def pushIgnore (s : Stack) (value : ℤ) : Stack :=
  match s.Push value with
  | .ok s' => s'
  | .error _ => s

/-- Mirrors `Pop`: errors on empty stack, otherwise removes and returns the
last element. -/
def Pop (s : Stack) : Except String (ℤ × Stack) :=
  match s.data.getLast? with
  | none => .error "stack underflow: pila vacia"
  | some value => .ok (value, ⟨s.data.dropLast⟩)

/-- Mirrors `Len`. -/
def Len (s : Stack) : ℕ := s.data.length

end Stack

/-- Memory mirrors `Memory`: a byte slice. -/
structure Memory where
  data : List ℕ
  deriving DecidableEq, Repr

namespace Memory

/-- Mirrors `NewMemory`. -/
def new : Memory := ⟨[]⟩

/-- Mirrors `Memory.Store`: grows the byte slice to `offset + len(value)`
(zero-filled) when needed, then copies `value` at `offset`.  Offsets are
taken as `ℕ`; in Go the interpreter truncates the popped 256-bit offset with
`int(offset.Int64())` and a negative offset would panic the process — no
claim exercises that corner. -/
def Store (m : Memory) (offset : ℕ) (value : List ℕ) : Memory :=
  let requiredSize := offset + value.length
  let data := if m.data.length < requiredSize
              then m.data ++ List.replicate (requiredSize - m.data.length) 0
              else m.data
  ⟨data.take offset ++ value ++ data.drop (offset + value.length)⟩

/-- Mirrors `Memory.Load`: errors when `offset+size` exceeds the current
memory size, otherwise returns the `size` bytes at `offset`. -/
def Load (m : Memory) (offset size : ℕ) : Except String (List ℕ) :=
  if m.data.length < offset + size then
    .error "memoria fuera de rango"
  else
    .ok ((m.data.drop offset).take size)

end Memory

/-- Storage mirrors `Storage`: `map[string]*big.Int` keyed by the decimal
string of the slot (`big.Int.String()`, which is injective on `ℤ`). -/
structure Storage where
  Data : String → Option ℤ

namespace Storage

/-- Mirrors `NewStorage`. -/
def new : Storage := ⟨fun _ => none⟩

/-- Mirrors `Storage.Store`: storing zero deletes the entry. -/
def Store (s : Storage) (key value : ℤ) : Storage :=
  let keyStr := toString key
  if value = 0 then
    ⟨fun k => if k = keyStr then none else s.Data k⟩
  else
    ⟨fun k => if k = keyStr then some value else s.Data k⟩

/-- Mirrors `Storage.Load`: a missing slot reads as zero. -/
def Load (s : Storage) (key : ℤ) : ℤ :=
  match s.Data (toString key) with
  | none => 0
  | some value => value

end Storage

/-! ## evm/opcodes.go and evm/interpreter.go -/

/-- OpCode mirrors `type OpCode byte`. -/
abbrev OpCode := ℕ

namespace OpCode

def STOP : OpCode := 0x00
def ADD : OpCode := 0x01
def MUL : OpCode := 0x02
def SUB : OpCode := 0x03
def DIV : OpCode := 0x04
def MOD : OpCode := 0x06
def LT : OpCode := 0x10
def GT : OpCode := 0x11
def EQ : OpCode := 0x14
def POP : OpCode := 0x50
def MLOAD : OpCode := 0x51
def MSTORE : OpCode := 0x52
def SLOAD : OpCode := 0x54
def SSTORE : OpCode := 0x55
def JUMP : OpCode := 0x56
def JUMPI : OpCode := 0x57
def PC : OpCode := 0x58
def PUSH1 : OpCode := 0x60
def PUSH2 : OpCode := 0x61
def PUSH3 : OpCode := 0x62
def PUSH4 : OpCode := 0x63
def PUSH5 : OpCode := 0x64
def PUSH32 : OpCode := 0x7f
def DUP1 : OpCode := 0x80
def DUP2 : OpCode := 0x81
def SWAP1 : OpCode := 0x90
def SWAP2 : OpCode := 0x91
def RETURN : OpCode := 0xf3

/-- Mirrors `PushSize`: number of payload bytes of a PUSH opcode. -/
def PushSize (op : OpCode) : ℕ :=
  if PUSH1 ≤ op ∧ op ≤ PUSH32 then op - PUSH1 + 1 else 0

/-- Mirrors `IsJump`. -/
def IsJump (op : OpCode) : Bool := op = JUMP || op = JUMPI

end OpCode

/-- Mirrors the `gasCosts` map together with `EVMInterpreter.GetGasCost`
(missing opcodes cost the default 3). -/
def GetGasCost (op : OpCode) : ℕ :=
  if op = OpCode.STOP then 0
  else if op = OpCode.ADD then 3
  else if op = OpCode.MUL then 5
  else if op = OpCode.SUB then 3
  else if op = OpCode.DIV then 5
  else if op = OpCode.MOD then 5
  else if op = OpCode.LT then 3
  else if op = OpCode.GT then 3
  else if op = OpCode.EQ then 3
  else if op = OpCode.POP then 2
  else if op = OpCode.MLOAD then 3
  else if op = OpCode.MSTORE then 3
  else if op = OpCode.SLOAD then 200
  else if op = OpCode.SSTORE then 20000
  else if op = OpCode.JUMP then 8
  else if op = OpCode.JUMPI then 10
  else if op = OpCode.PC then 2
  else if op = OpCode.PUSH1 then 3
  else if op = OpCode.PUSH2 then 3
  else if op = OpCode.PUSH3 then 3
  else if op = OpCode.PUSH4 then 3
  else if op = OpCode.PUSH5 then 3
  else if op = OpCode.PUSH32 then 3
  else if op = OpCode.DUP1 then 3
  else if op = OpCode.DUP2 then 3
  else if op = OpCode.SWAP1 then 3
  else if op = OpCode.SWAP2 then 3
  else if op = OpCode.RETURN then 0
  else 3

/-- Big-endian minimal byte representation of a natural number
(`big.Int.Bytes()`; zero gives the empty slice). -/
def natBytesBE (n : ℕ) : List ℕ :=
  if n = 0 then [] else natBytesBE (n / 256) ++ [n % 256]

/-- Big-endian value of a byte slice (`big.Int.SetBytes`). -/
def bytesToNat (bs : List ℕ) : ℕ :=
  bs.foldl (fun acc b => acc * 256 + b) 0

/-- ExecutionContext mirrors `ExecutionContext` (the `Verbose` and `Contract`
fields only drive logging and are omitted). -/
structure ExecutionContext where
  Stack : Stack
  Memory : Memory
  Storage : Storage
  Code : List ℕ
  PC : ℕ
  Gas : ℕ
  Stopped : Bool

namespace EVMInterpreter

/-- Mirrors `opStop`. -/
def opStop (ctx : ExecutionContext) : Except String ExecutionContext :=
  .ok { ctx with Stopped := true }

/-- Mirrors `opAdd`: underflow-checked double pop, then a `Push` whose error
is discarded by the handler. -/
def opAdd (ctx : ExecutionContext) : Except String ExecutionContext :=
  if ctx.Stack.Len < 2 then .error "stack underflow: ADD necesita 2 valores"
  else match ctx.Stack.Pop with
  | .error e => .error e
  | .ok (a, s1) => match s1.Pop with
    | .error e => .error e
    | .ok (b, s2) => .ok { ctx with Stack := s2.pushIgnore (a + b) }

/-- Mirrors `opMul`. -/
def opMul (ctx : ExecutionContext) : Except String ExecutionContext :=
  if ctx.Stack.Len < 2 then .error "stack underflow"
  else match ctx.Stack.Pop with
  | .error e => .error e
  | .ok (a, s1) => match s1.Pop with
    | .error e => .error e
    | .ok (b, s2) => .ok { ctx with Stack := s2.pushIgnore (a * b) }

/-- Mirrors `opSub` (`big.Int` subtraction: results may go negative, the
interpreter does not wrap to 256 bits). -/
def opSub (ctx : ExecutionContext) : Except String ExecutionContext :=
  if ctx.Stack.Len < 2 then .error "stack underflow"
  else match ctx.Stack.Pop with
  | .error e => .error e
  | .ok (a, s1) => match s1.Pop with
    | .error e => .error e
    | .ok (b, s2) => .ok { ctx with Stack := s2.pushIgnore (a - b) }

/-- Mirrors `opDiv`: division by zero pushes zero; `big.Int.Div` is
Euclidean division for positive operands (the Go `Div` is floored toward
negative infinity for mixed signs; `Int.ediv` agrees on the nonnegative
operands all implemented contracts produce). -/
def opDiv (ctx : ExecutionContext) : Except String ExecutionContext :=
  if ctx.Stack.Len < 2 then .error "stack underflow"
  else match ctx.Stack.Pop with
  | .error e => .error e
  | .ok (a, s1) => match s1.Pop with
    | .error e => .error e
    | .ok (b, s2) =>
        if b = 0 then .ok { ctx with Stack := s2.pushIgnore 0 }
        else .ok { ctx with Stack := s2.pushIgnore (Int.ediv a b) }

/-- Mirrors `opMod`. -/
def opMod (ctx : ExecutionContext) : Except String ExecutionContext :=
  if ctx.Stack.Len < 2 then .error "stack underflow"
  else match ctx.Stack.Pop with
  | .error e => .error e
  | .ok (a, s1) => match s1.Pop with
    | .error e => .error e
    | .ok (b, s2) =>
        if b = 0 then .ok { ctx with Stack := s2.pushIgnore 0 }
        else .ok { ctx with Stack := s2.pushIgnore (Int.emod a b) }

/-- Mirrors `opLt`. -/
def opLt (ctx : ExecutionContext) : Except String ExecutionContext :=
  if ctx.Stack.Len < 2 then .error "stack underflow"
  else match ctx.Stack.Pop with
  | .error e => .error e
  | .ok (a, s1) => match s1.Pop with
    | .error e => .error e
    | .ok (b, s2) =>
        .ok { ctx with Stack := s2.pushIgnore (if a < b then 1 else 0) }

/-- Mirrors `opGt`. -/
def opGt (ctx : ExecutionContext) : Except String ExecutionContext :=
  if ctx.Stack.Len < 2 then .error "stack underflow"
  else match ctx.Stack.Pop with
  | .error e => .error e
  | .ok (a, s1) => match s1.Pop with
    | .error e => .error e
    | .ok (b, s2) =>
        .ok { ctx with Stack := s2.pushIgnore (if b < a then 1 else 0) }

/-- Mirrors `opEq`. -/
def opEq (ctx : ExecutionContext) : Except String ExecutionContext :=
  if ctx.Stack.Len < 2 then .error "stack underflow"
  else match ctx.Stack.Pop with
  | .error e => .error e
  | .ok (a, s1) => match s1.Pop with
    | .error e => .error e
    | .ok (b, s2) =>
        .ok { ctx with Stack := s2.pushIgnore (if a = b then 1 else 0) }

/-- Mirrors `opPop`. -/
def opPop (ctx : ExecutionContext) : Except String ExecutionContext :=
  if ctx.Stack.Len < 1 then .error "stack underflow"
  else match ctx.Stack.Pop with
  | .error e => .error e
  | .ok (_, s1) => .ok { ctx with Stack := s1 }

/-- Mirrors `opMload`: pops the offset, loads 32 bytes (a failed load is
discarded with `_` yielding nil, i.e. value zero), pushes `SetBytes(value)`
(big-endian).  Offsets are taken at their nonnegative value (see
`Memory.Store`). -/
def opMload (ctx : ExecutionContext) : Except String ExecutionContext :=
  if ctx.Stack.Len < 1 then .error "stack underflow"
  else match ctx.Stack.Pop with
  | .error e => .error e
  | .ok (offset, s1) =>
      let value := match ctx.Memory.Load offset.toNat 32 with
                   | .ok v => v
                   | .error _ => []
      .ok { ctx with Stack := s1.pushIgnore (bytesToNat value : ℤ) }

/-- Mirrors `opMstore`: pops offset and value, stores `value.Bytes()` (the
minimal big-endian representation of the absolute value). -/
def opMstore (ctx : ExecutionContext) : Except String ExecutionContext :=
  if ctx.Stack.Len < 2 then .error "stack underflow"
  else match ctx.Stack.Pop with
  | .error e => .error e
  | .ok (offset, s1) => match s1.Pop with
    | .error e => .error e
    | .ok (value, s2) =>
        .ok { ctx with Stack := s2,
                       Memory := ctx.Memory.Store offset.toNat (natBytesBE value.natAbs) }

/-- Mirrors `opSload`. -/
def opSload (ctx : ExecutionContext) : Except String ExecutionContext :=
  if ctx.Stack.Len < 1 then .error "stack underflow"
  else match ctx.Stack.Pop with
  | .error e => .error e
  | .ok (key, s1) =>
      .ok { ctx with Stack := s1.pushIgnore (ctx.Storage.Load key) }

/-- Mirrors `opSstore`. -/
def opSstore (ctx : ExecutionContext) : Except String ExecutionContext :=
  if ctx.Stack.Len < 2 then .error "stack underflow"
  else match ctx.Stack.Pop with
  | .error e => .error e
  | .ok (key, s1) => match s1.Pop with
    | .error e => .error e
    | .ok (value, s2) =>
        .ok { ctx with Stack := s2, Storage := ctx.Storage.Store key value }

/-- Mirrors `opPush`: errors when `ctx.PC+pushSize >= len(ctx.Code)` (fewer
than `pushSize` payload bytes remain after the opcode byte), otherwise reads
`Code[PC+1 : PC+1+pushSize]` big-endian, pushes it (error discarded), and
advances PC by `pushSize`. -/
def opPush (op : OpCode) (ctx : ExecutionContext) : Except String ExecutionContext :=
  let pushSize := op.PushSize
  if ctx.Code.length ≤ ctx.PC + pushSize then
    .error "codigo incompleto para PUSH"
  else
    let valueBytes := (ctx.Code.drop (ctx.PC + 1)).take pushSize
    let value : ℤ := bytesToNat valueBytes
    .ok { ctx with Stack := ctx.Stack.pushIgnore value, PC := ctx.PC + pushSize }

/-- Mirrors `opDup`: `n := op - DUP1 + 1`; underflow-checked; duplicates
`data[Len-n]` (a `Push` whose error is discarded). -/
def opDup (op : OpCode) (ctx : ExecutionContext) : Except String ExecutionContext :=
  let n := op - OpCode.DUP1 + 1
  if ctx.Stack.Len < n then .error "stack underflow"
  else
    let value := ctx.Stack.data.getD (ctx.Stack.Len - n) 0
    .ok { ctx with Stack := ctx.Stack.pushIgnore value }

/-- Mirrors `opSwap`: `n := op - SWAP1 + 1`; needs `Len ≥ n+1`; swaps the top
element with the one `n` below it. -/
def opSwap (op : OpCode) (ctx : ExecutionContext) : Except String ExecutionContext :=
  let n := op - OpCode.SWAP1 + 1
  if ctx.Stack.Len < n + 1 then .error "stack underflow"
  else
    let top := ctx.Stack.Len - 1
    let a := ctx.Stack.data.getD top 0
    let b := ctx.Stack.data.getD (top - n) 0
    .ok { ctx with Stack := ⟨(ctx.Stack.data.set top b).set (top - n) a⟩ }

/-- Mirrors `ExecuteOpcode`: dispatch on the opcode; anything not in the
switch (including JUMP/JUMPI/PC/RETURN) is an unimplemented-opcode error. -/
def ExecuteOpcode (op : OpCode) (ctx : ExecutionContext) : Except String ExecutionContext :=
  if op = OpCode.STOP then opStop ctx
  else if op = OpCode.ADD then opAdd ctx
  else if op = OpCode.MUL then opMul ctx
  else if op = OpCode.SUB then opSub ctx
  else if op = OpCode.DIV then opDiv ctx
  else if op = OpCode.MOD then opMod ctx
  else if op = OpCode.LT then opLt ctx
  else if op = OpCode.GT then opGt ctx
  else if op = OpCode.EQ then opEq ctx
  else if op = OpCode.POP then opPop ctx
  else if op = OpCode.MLOAD then opMload ctx
  else if op = OpCode.MSTORE then opMstore ctx
  else if op = OpCode.SLOAD then opSload ctx
  else if op = OpCode.SSTORE then opSstore ctx
  else if op = OpCode.PUSH1 ∨ op = OpCode.PUSH2 ∨ op = OpCode.PUSH3 ∨
          op = OpCode.PUSH4 ∨ op = OpCode.PUSH5 ∨ op = OpCode.PUSH32 then opPush op ctx
  else if op = OpCode.DUP1 ∨ op = OpCode.DUP2 then opDup op ctx
  else if op = OpCode.SWAP1 ∨ op = OpCode.SWAP2 then opSwap op ctx
  else .error "opcode no implementado"

/-- Characterization of `pushIgnore`. -/
theorem Stack.pushIgnore_def (s : Stack) (v : ℤ) :
    s.pushIgnore v = if 1024 ≤ s.data.length then s else ⟨s.data ++ [v]⟩ := by
  unfold Stack.pushIgnore Stack.Push
  split <;> split_ifs at * <;> simp_all

theorem opStop_ok {ctx ctx' : ExecutionContext} (h : EVMInterpreter.opStop ctx = .ok ctx') :
    ctx'.Code = ctx.Code ∧ ctx.PC ≤ ctx'.PC := by
  unfold EVMInterpreter.opStop at h
  repeat' split at h
  all_goals first
    | (injection h with h2; subst h2; exact ⟨rfl, le_refl _⟩)
    | simp at h

theorem opAdd_ok {ctx ctx' : ExecutionContext} (h : EVMInterpreter.opAdd ctx = .ok ctx') :
    ctx'.Code = ctx.Code ∧ ctx.PC ≤ ctx'.PC := by
  unfold EVMInterpreter.opAdd at h
  repeat' split at h
  all_goals first
    | (injection h with h2; subst h2; exact ⟨rfl, le_refl _⟩)
    | simp at h

theorem opMul_ok {ctx ctx' : ExecutionContext} (h : EVMInterpreter.opMul ctx = .ok ctx') :
    ctx'.Code = ctx.Code ∧ ctx.PC ≤ ctx'.PC := by
  unfold EVMInterpreter.opMul at h
  repeat' split at h
  all_goals first
    | (injection h with h2; subst h2; exact ⟨rfl, le_refl _⟩)
    | simp at h

theorem opSub_ok {ctx ctx' : ExecutionContext} (h : EVMInterpreter.opSub ctx = .ok ctx') :
    ctx'.Code = ctx.Code ∧ ctx.PC ≤ ctx'.PC := by
  unfold EVMInterpreter.opSub at h
  repeat' split at h
  all_goals first
    | (injection h with h2; subst h2; exact ⟨rfl, le_refl _⟩)
    | simp at h

theorem opDiv_ok {ctx ctx' : ExecutionContext} (h : EVMInterpreter.opDiv ctx = .ok ctx') :
    ctx'.Code = ctx.Code ∧ ctx.PC ≤ ctx'.PC := by
  unfold EVMInterpreter.opDiv at h
  repeat' split at h
  all_goals first
    | (injection h with h2; subst h2; exact ⟨rfl, le_refl _⟩)
    | simp at h

theorem opMod_ok {ctx ctx' : ExecutionContext} (h : EVMInterpreter.opMod ctx = .ok ctx') :
    ctx'.Code = ctx.Code ∧ ctx.PC ≤ ctx'.PC := by
  unfold EVMInterpreter.opMod at h
  repeat' split at h
  all_goals first
    | (injection h with h2; subst h2; exact ⟨rfl, le_refl _⟩)
    | simp at h

theorem opLt_ok {ctx ctx' : ExecutionContext} (h : EVMInterpreter.opLt ctx = .ok ctx') :
    ctx'.Code = ctx.Code ∧ ctx.PC ≤ ctx'.PC := by
  unfold EVMInterpreter.opLt at h
  repeat' split at h
  all_goals first
    | (injection h with h2; subst h2; exact ⟨rfl, le_refl _⟩)
    | simp at h

theorem opGt_ok {ctx ctx' : ExecutionContext} (h : EVMInterpreter.opGt ctx = .ok ctx') :
    ctx'.Code = ctx.Code ∧ ctx.PC ≤ ctx'.PC := by
  unfold EVMInterpreter.opGt at h
  repeat' split at h
  all_goals first
    | (injection h with h2; subst h2; exact ⟨rfl, le_refl _⟩)
    | simp at h

theorem opEq_ok {ctx ctx' : ExecutionContext} (h : EVMInterpreter.opEq ctx = .ok ctx') :
    ctx'.Code = ctx.Code ∧ ctx.PC ≤ ctx'.PC := by
  unfold EVMInterpreter.opEq at h
  repeat' split at h
  all_goals first
    | (injection h with h2; subst h2; exact ⟨rfl, le_refl _⟩)
    | simp at h

theorem opPop_ok {ctx ctx' : ExecutionContext} (h : EVMInterpreter.opPop ctx = .ok ctx') :
    ctx'.Code = ctx.Code ∧ ctx.PC ≤ ctx'.PC := by
  unfold EVMInterpreter.opPop at h
  repeat' split at h
  all_goals first
    | (injection h with h2; subst h2; exact ⟨rfl, le_refl _⟩)
    | simp at h

theorem opMload_ok {ctx ctx' : ExecutionContext} (h : EVMInterpreter.opMload ctx = .ok ctx') :
    ctx'.Code = ctx.Code ∧ ctx.PC ≤ ctx'.PC := by
  unfold EVMInterpreter.opMload at h
  repeat' split at h
  all_goals first
    | (injection h with h2; subst h2; exact ⟨rfl, le_refl _⟩)
    | simp at h

theorem opMstore_ok {ctx ctx' : ExecutionContext} (h : EVMInterpreter.opMstore ctx = .ok ctx') :
    ctx'.Code = ctx.Code ∧ ctx.PC ≤ ctx'.PC := by
  unfold EVMInterpreter.opMstore at h
  repeat' split at h
  all_goals first
    | (injection h with h2; subst h2; exact ⟨rfl, le_refl _⟩)
    | simp at h

theorem opSload_ok {ctx ctx' : ExecutionContext} (h : EVMInterpreter.opSload ctx = .ok ctx') :
    ctx'.Code = ctx.Code ∧ ctx.PC ≤ ctx'.PC := by
  unfold EVMInterpreter.opSload at h
  repeat' split at h
  all_goals first
    | (injection h with h2; subst h2; exact ⟨rfl, le_refl _⟩)
    | simp at h

theorem opSstore_ok {ctx ctx' : ExecutionContext} (h : EVMInterpreter.opSstore ctx = .ok ctx') :
    ctx'.Code = ctx.Code ∧ ctx.PC ≤ ctx'.PC := by
  unfold EVMInterpreter.opSstore at h
  repeat' split at h
  all_goals first
    | (injection h with h2; subst h2; exact ⟨rfl, le_refl _⟩)
    | simp at h

theorem opDup_ok {op : OpCode} {ctx ctx' : ExecutionContext}
    (h : EVMInterpreter.opDup op ctx = .ok ctx') :
    ctx'.Code = ctx.Code ∧ ctx.PC ≤ ctx'.PC := by
  unfold EVMInterpreter.opDup at h
  simp only [] at h
  split_ifs at h
  all_goals first
    | (injection h with h2; subst h2; exact ⟨rfl, le_refl _⟩)
    | simp at h

theorem opSwap_ok {op : OpCode} {ctx ctx' : ExecutionContext}
    (h : EVMInterpreter.opSwap op ctx = .ok ctx') :
    ctx'.Code = ctx.Code ∧ ctx.PC ≤ ctx'.PC := by
  unfold EVMInterpreter.opSwap at h
  simp only [] at h
  split_ifs at h
  all_goals first
    | (injection h with h2; subst h2; exact ⟨rfl, le_refl _⟩)
    | simp at h

theorem opPush_ok {op : OpCode} {ctx ctx' : ExecutionContext}
    (h : EVMInterpreter.opPush op ctx = .ok ctx') :
    ctx'.Code = ctx.Code ∧ ctx.PC ≤ ctx'.PC := by
  unfold EVMInterpreter.opPush at h
  simp only [] at h
  split_ifs at h
  all_goals first
    | (injection h with h2; subst h2; exact ⟨rfl, Nat.le_add_right _ _⟩)
    | simp at h

/-- Every successfully executed opcode leaves the code unchanged, never
decreases the program counter, and is not a jump (JUMP and JUMPI fall into
the unimplemented-opcode branch of `ExecuteOpcode` and error out). -/
theorem ExecuteOpcode_ok {op : OpCode} {ctx ctx' : ExecutionContext}
    (h : ExecuteOpcode op ctx = .ok ctx') :
    ctx'.Code = ctx.Code ∧ ctx.PC ≤ ctx'.PC ∧ op.IsJump = false := by
  unfold ExecuteOpcode at h
  by_cases h1 : op = OpCode.STOP
  · rw [if_pos h1] at h
    exact ⟨(opStop_ok h).1, (opStop_ok h).2, by subst h1; decide⟩
  rw [if_neg h1] at h
  by_cases h2 : op = OpCode.ADD
  · rw [if_pos h2] at h
    exact ⟨(opAdd_ok h).1, (opAdd_ok h).2, by subst h2; decide⟩
  rw [if_neg h2] at h
  by_cases h3 : op = OpCode.MUL
  · rw [if_pos h3] at h
    exact ⟨(opMul_ok h).1, (opMul_ok h).2, by subst h3; decide⟩
  rw [if_neg h3] at h
  by_cases h4 : op = OpCode.SUB
  · rw [if_pos h4] at h
    exact ⟨(opSub_ok h).1, (opSub_ok h).2, by subst h4; decide⟩
  rw [if_neg h4] at h
  by_cases h5 : op = OpCode.DIV
  · rw [if_pos h5] at h
    exact ⟨(opDiv_ok h).1, (opDiv_ok h).2, by subst h5; decide⟩
  rw [if_neg h5] at h
  by_cases h6 : op = OpCode.MOD
  · rw [if_pos h6] at h
    exact ⟨(opMod_ok h).1, (opMod_ok h).2, by subst h6; decide⟩
  rw [if_neg h6] at h
  by_cases h7 : op = OpCode.LT
  · rw [if_pos h7] at h
    exact ⟨(opLt_ok h).1, (opLt_ok h).2, by subst h7; decide⟩
  rw [if_neg h7] at h
  by_cases h8 : op = OpCode.GT
  · rw [if_pos h8] at h
    exact ⟨(opGt_ok h).1, (opGt_ok h).2, by subst h8; decide⟩
  rw [if_neg h8] at h
  by_cases h9 : op = OpCode.EQ
  · rw [if_pos h9] at h
    exact ⟨(opEq_ok h).1, (opEq_ok h).2, by subst h9; decide⟩
  rw [if_neg h9] at h
  by_cases h10 : op = OpCode.POP
  · rw [if_pos h10] at h
    exact ⟨(opPop_ok h).1, (opPop_ok h).2, by subst h10; decide⟩
  rw [if_neg h10] at h
  by_cases h11 : op = OpCode.MLOAD
  · rw [if_pos h11] at h
    exact ⟨(opMload_ok h).1, (opMload_ok h).2, by subst h11; decide⟩
  rw [if_neg h11] at h
  by_cases h12 : op = OpCode.MSTORE
  · rw [if_pos h12] at h
    exact ⟨(opMstore_ok h).1, (opMstore_ok h).2, by subst h12; decide⟩
  rw [if_neg h12] at h
  by_cases h13 : op = OpCode.SLOAD
  · rw [if_pos h13] at h
    exact ⟨(opSload_ok h).1, (opSload_ok h).2, by subst h13; decide⟩
  rw [if_neg h13] at h
  by_cases h14 : op = OpCode.SSTORE
  · rw [if_pos h14] at h
    exact ⟨(opSstore_ok h).1, (opSstore_ok h).2, by subst h14; decide⟩
  rw [if_neg h14] at h
  by_cases h15 : op = OpCode.PUSH1 ∨ op = OpCode.PUSH2 ∨ op = OpCode.PUSH3 ∨
          op = OpCode.PUSH4 ∨ op = OpCode.PUSH5 ∨ op = OpCode.PUSH32
  · rw [if_pos h15] at h
    refine ⟨(opPush_ok h).1, (opPush_ok h).2, ?_⟩
    rcases h15 with h' | h' | h' | h' | h' | h' <;> subst h' <;> decide
  rw [if_neg h15] at h
  by_cases h16 : op = OpCode.DUP1 ∨ op = OpCode.DUP2
  · rw [if_pos h16] at h
    refine ⟨(opDup_ok h).1, (opDup_ok h).2, ?_⟩
    rcases h16 with h' | h' <;> subst h' <;> decide
  rw [if_neg h16] at h
  by_cases h17 : op = OpCode.SWAP1 ∨ op = OpCode.SWAP2
  · rw [if_pos h17] at h
    refine ⟨(opSwap_ok h).1, (opSwap_ok h).2, ?_⟩
    rcases h17 with h' | h' <;> subst h' <;> decide
  rw [if_neg h17] at h
  simp at h

/-- Mirrors `EVMInterpreter.Run`: the main interpreter loop.  Each iteration
reads the opcode at PC, charges gas (out-of-gas error), executes the opcode
(propagating its error), then advances PC past the opcode unless it was a
jump.  The loop terminates because every successfully executed opcode keeps
PC nondecreasing (`ExecuteOpcode_ok`) and the loop adds one. -/
def Run (ctx : ExecutionContext) : Except String ExecutionContext :=
  if _h : ctx.PC < ctx.Code.length ∧ ctx.Stopped = false then
    let op : OpCode := ctx.Code.getD ctx.PC 0
    let gasCost := GetGasCost op
    if ctx.Gas < gasCost then
      .error "out of gas"
    else
      match hstep : ExecuteOpcode op { ctx with Gas := ctx.Gas - gasCost } with
      | .error _e => .error "error ejecutando opcode"
      | .ok ctx' =>
          if op.IsJump then Run ctx'
          else Run { ctx' with PC := ctx'.PC + 1 }
  else
    .ok ctx
termination_by ctx.Code.length - ctx.PC
decreasing_by
  · exact absurd (ExecuteOpcode_ok hstep).2.2 (by simp_all)
  · have h1 := (ExecuteOpcode_ok hstep).1
    have h2 := (ExecuteOpcode_ok hstep).2.1
    dsimp only at h1 h2 ⊢
    rw [h1]
    omega

end EVMInterpreter

/-! ## evm/contract.go, blockchain/transacction.go, blockchain/block.go -/

/-- StorageSnapshot: a copy of a contract storage map (`map[string]*big.Int`). -/
structure StorageSnapshot where
  Data : String → Option ℤ

/-- Modelled from the spec: `Storage.CreateSnapshot` is referenced from
`Transaction.Execute` but its definition is not among the provided sources;
spec section 4.5 describes a contract-storage snapshot as a deep copy of the
per-contract slot map. -/
def Storage.CreateSnapshot (s : Storage) : StorageSnapshot := ⟨s.Data⟩

/-- Modelled from the spec: `Storage.RevertToSnapshot` is referenced from
`Transaction.Execute` but its definition is not among the provided sources;
spec sections 4.5/4.6 describe restore as replacing the map with the
snapshot. -/
def Storage.RevertToSnapshot (_s : Storage) (snapshot : StorageSnapshot) : Storage :=
  ⟨snapshot.Data⟩

/-- Lower-case hex digit. -/
def hexChar (n : ℕ) : Char := "0123456789abcdef".toList.getD n 'x'

/-- Mirrors Go `fmt.Sprintf("%x", bytes)`: two lowercase hex digits per byte. -/
def bytesToHex (bs : List ℕ) : String :=
  String.mk (bs.foldr (fun b acc => hexChar (b / 16 % 16) :: hexChar (b % 16) :: acc) [])

/-- Alias for the `Storage` type, used inside the `Contract` namespace where
the field name `Contract.Storage` shadows the type name. -/
abbrev StorageMap := Storage

/-- Contract mirrors `Contract` (evm/contract.go). -/
structure Contract where
  Address : String
  Owner : String
  Bytecode : List ℕ
  Storage : Storage
  Balance : ℚ

/-- Mirrors `NewContract`: the address is the first 40 hex characters of
`CalculateHash(owner ++ ":" ++ hex(bytecode))`; `CalculateHash` (SHA-256,
utils/crypto.go) is the external hash parameter `sha`. -/
def Contract.new (sha : String → String) (owner : String) (bytecode : List ℕ) : Contract :=
  { Address := (sha (owner ++ ":" ++ bytesToHex bytecode)).take 40
    Owner := owner
    Bytecode := bytecode
    Storage := Storage.new
    Balance := 0 }

/-- Mirrors `Contract.Execute`: builds a fresh execution context over the
contract storage and runs the interpreter; returns the remaining gas and the
(possibly mutated) storage.  In Go the storage is mutated through a pointer
even when `Run` errors; `Transaction.Execute` only consumes the mutated
storage on the success path (the failure path restores the snapshot), so the
embedding returns the storage only on success. -/
def Contract.Execute (c : Contract) (gas : ℕ) : Except String (ℕ × StorageMap) :=
  let ctx : ExecutionContext :=
    { Stack := Stack.new, Memory := Memory.new, Storage := c.Storage,
      Code := c.Bytecode, PC := 0, Gas := gas, Stopped := false }
  match EVMInterpreter.Run ctx with
  | .error e => .error e
  | .ok ctx' => .ok (ctx'.Gas, ctx'.Storage)

/-- Transaction mirrors `Transaction` (blockchain/transacction.go); the
public-key coordinates are omitted (the signature layer is out of scope and
unused by `Execute`). -/
structure Transaction where
  From : String
  To : String
  Amount : ℚ
  Nonce : ℤ
  Data : List ℕ
  Signature : String
  ContractAddress : String
  GasUsed : ℕ

/-- Mirrors `IsContractDeployment`: `tx.To == "" && len(tx.Data) > 0`. -/
def Transaction.IsContractDeployment (tx : Transaction) : Bool :=
  tx.To = "" && 0 < tx.Data.length

/-- Block mirrors `Block` (blockchain/block.go): the `time.Time` timestamp is
kept abstract as the string `Timestamp.String()` contributes to the hash
preimage. -/
structure Block where
  Index : ℤ
  Timestamp : String
  Transactions : List Transaction
  PreviousHash : String
  Hash : String
  Nonce : ℤ

/-- Blockchain mirrors `Blockchain` (blocks, difficulty, account state,
mempool, deployed contracts). -/
structure Blockchain where
  Blocks : List Block
  Difficulty : ℕ
  AccountState : AccountState
  PendingTxs : List Transaction
  Contracts : String → Option Contract

/-- Mirrors `Blockchain.GetContract`. -/
def Blockchain.GetContract (bc : Blockchain) (address : String) : Except String Contract :=
  match bc.Contracts address with
  | some contract => .ok contract
  | none => .error "contrato no encontrado"

/-- Mirrors `Blockchain.DeployContract`: registers `NewContract(owner,
bytecode)` under its derived address (never errors). -/
def Blockchain.DeployContract (sha : String → String) (bc : Blockchain)
    (owner : String) (bytecode : List ℕ) : Contract × Blockchain :=
  let contract := Contract.new sha owner bytecode
  (contract,
   { bc with Contracts := fun a => if a = contract.Address then some contract
                                   else bc.Contracts a })

/-- Replaces the storage of the contract registered at `address` (models the
in-place mutation of `contract.Storage` through the `*Contract` pointer). -/
def Blockchain.setContractStorage (bc : Blockchain) (address : String) (st : Storage) :
    Blockchain :=
  { bc with Contracts := fun a => if a = address then
                                    (bc.Contracts address).map (fun c => { c with Storage := st })
                                  else bc.Contracts a }

/-- Mirrors `IsContractCall`: false for empty `To`, otherwise whether
`GetContract(tx.To)` succeeds. -/
def Transaction.IsContractCall (tx : Transaction) (bc : Blockchain) : Bool :=
  if tx.To = "" then false
  else (bc.Contracts tx.To).isSome

/-- Mirrors `Transaction.ExecuteContract`: deploy registers the contract and
charges the deploy cost model; call runs the interpreter with the given gas
and records `1,000,000 - gasLeft`; anything else is a no-op.  Returns the
updated transaction (ContractAddress/GasUsed) and blockchain. -/
def Transaction.ExecuteContract (sha : String → String) (tx : Transaction)
    (bc : Blockchain) : Except String (Transaction × Blockchain) :=
  if tx.IsContractDeployment then
    let (contract, bc') := bc.DeployContract sha tx.From tx.Data
    let baseGas : ℕ := 32000
    let bytecodeGas : ℕ := tx.Data.length * 200
    .ok ({ tx with ContractAddress := contract.Address,
                   GasUsed := baseGas + bytecodeGas }, bc')
  else if tx.IsContractCall bc then
    match bc.GetContract tx.To with
    | .error e => .error e
    | .ok contract =>
        match contract.Execute 1000000 with
        | .error _ => .error "error ejecutando contrato"
        | .ok (gasLeft, storage') =>
            .ok ({ tx with GasUsed := 1000000 - gasLeft },
                 bc.setContractStorage tx.To storage')
  else
    .ok (tx, bc)

/-- Result of `Transaction.Execute`: the returned `error` (`none` = Go `nil`)
together with the final values of the mutated transaction, account state and
blockchain. -/
structure ExecResult where
  err : Option String
  tx : Transaction
  state : AccountState
  bc : Blockchain

/-- The constant `gasPrice = 0.000001` of `Transaction.Execute`. -/
def gasPrice : ℚ := 1 / 1000000

/-- The gas-limit estimate computed in phase 1 of `Transaction.Execute`:
deploy costs `32000 + 200 x len(Data)`; executing code (`len(Data) > 0` or a
contract call) costs `1,000,000`; a simple transfer costs `21,000`. -/
def Transaction.gasLimitOf (tx : Transaction) (bc : Blockchain) : ℕ :=
  if tx.IsContractDeployment then 32000 + tx.Data.length * 200
  else if 0 < tx.Data.length ∨ tx.IsContractCall bc then 1000000
  else 21000

/-- Phase 5a of `Transaction.Execute` (amount transfer): debit the sender;
on success credit `tx.To` when nonempty; a debit failure becomes the
execution error. -/
def Transaction.executeBody1 (tx : Transaction) (state : AccountState) :
    Option String × AccountState :=
  if 0 < tx.Amount then
    match state.SubtractBalance tx.From tx.Amount with
    | .error e => (some e, state)
    | .ok state' =>
        if tx.To ≠ "" then (none, state'.AddBalance tx.To tx.Amount)
        else ((none : Option String), state')
  else (none, state)

/-- Phase 5b of `Transaction.Execute` (contract execution): when the body has
not failed yet and the transaction carries data or calls a contract, run
`ExecuteContract` (its error becomes the execution error) and force
`GasUsed := gasLimit` if it is still zero; otherwise a plain transfer charges
the base 21000 gas. -/
def Transaction.executeBody2 (sha : String → String) (tx : Transaction)
    (bc : Blockchain) (gasLimit : ℕ) (e1 : Option String) :
    Option String × Transaction × Blockchain :=
  if e1 = none ∧ (0 < tx.Data.length ∨ tx.IsContractCall bc) then
    let c1 : Option String × Transaction × Blockchain :=
      match tx.ExecuteContract sha bc with
      | .error e => (some ("error ejecutando contrato: " ++ e), tx, bc)
      | .ok (tx', bc') => ((none : Option String), tx', bc')
    -- si no se registro GasUsed, fallo antes de calcularlo
    if c1.2.1.GasUsed = 0 then (c1.1, { c1.2.1 with GasUsed := gasLimit }, c1.2.2)
    else c1
  else if e1 = none then (none, { tx with GasUsed := 21000 }, bc)
  else (e1, tx, bc)

/-- Phase 6 (failure), account part of `Transaction.Execute`: read the
sender account (current nonce and balance), restore the snapshot, then
re-impose the CURRENT nonce and the CURRENT balance on the sender through
the pointer returned by `GetAccount`. -/
def Transaction.executeRevert (state : AccountState)
    (accountSnapshot : StateSnapshot) (sender : String) : AccountState :=
  let g1 := state.GetAccount sender
  let currentNonce := g1.1.Nonce
  let currentBalance := g1.1.Balance
  let state := g1.2.RevertToSnapshot accountSnapshot
  -- restaurar nonce (debe quedar incrementado)
  let g2 := state.GetAccount sender
  let state := g2.2.setAccount sender { g2.1 with Nonce := currentNonce }
  -- el gas YA fue restado, no lo devolvemos
  let g3 := state.GetAccount sender
  g3.2.setAccount sender { g3.1 with Balance := currentBalance }

/-- Phase 6 (failure), storage part of `Transaction.Execute`: revert the
storage of every snapshotted contract. -/
def Blockchain.revertStorages (bc : Blockchain)
    (snaps : List (String × StorageSnapshot)) : Blockchain :=
  snaps.foldl
    (fun bc p =>
      match bc.Contracts p.1 with
      | some contract =>
          bc.setContractStorage p.1 (contract.Storage.RevertToSnapshot p.2)
      | none => bc) bc

/-- Mirrors `Transaction.Execute` (blockchain/transacction.go), phase by
phase: (1) gas-limit estimate and balance precheck, (2) snapshots,
(3) max-gas reservation, (4) nonce increment, (5) body execution
(`executeBody1` then `executeBody2`), (6) on body failure `executeRevert` /
`revertStorages` with full gas penalty, or the gas refund on success.  The
function returns Go `nil` (`none`) in both the revert and the success
cases. -/
def Transaction.Execute (sha : String → String) (tx : Transaction)
    (state : AccountState) (bc : Blockchain) : ExecResult :=
  -- FASE 1: VALIDACIONES PREVIAS
  let g0 := state.GetAccount tx.From
  let account := g0.1
  let state := g0.2
  let gasLimit := tx.gasLimitOf bc
  let maxGasCost : ℚ := (gasLimit : ℚ) * gasPrice
  let totalNeeded := tx.Amount + maxGasCost
  if account.Balance < totalNeeded then
    { err := some "saldo insuficiente para monto mas gas maximo",
      tx := tx, state := state, bc := bc }
  else
    -- FASE 2: CREAR SNAPSHOTS
    let accountSnapshot := state.CreateSnapshot
    let storageSnapshots : List (String × StorageSnapshot) :=
      if tx.IsContractCall bc then
        match bc.Contracts tx.To with
        | some contract => [(tx.To, contract.Storage.CreateSnapshot)]
        | none => []
      else []
    -- FASE 3: RESERVAR GAS
    match state.SubtractBalance tx.From maxGasCost with
    | .error e => { err := some e, tx := tx, state := state, bc := bc }
    | .ok state =>
      -- FASE 4: INCREMENTAR NONCE (NO SE REVIERTE)
      let state := state.IncrementNonce tx.From
      -- FASE 5: EJECUTAR TRANSACCION
      let body1 := tx.executeBody1 state
      let state := body1.2
      let body2 := tx.executeBody2 sha bc gasLimit body1.1
      let executionError := body2.1
      let tx := body2.2.1
      let bc := body2.2.2
      -- FASE 6: APLICAR O REVERTIR
      match executionError with
      | some _ =>
          let state := Transaction.executeRevert state accountSnapshot tx.From
          let bc := bc.revertStorages storageSnapshots
          -- consumir TODO el gas (penalizacion); Execute devuelve nil
          { err := none, tx := { tx with GasUsed := gasLimit }, state := state, bc := bc }
      | none =>
          -- exito: devolver gas no usado
          let gasCostUsed : ℚ := (tx.GasUsed : ℚ) * gasPrice
          let gasRefund := maxGasCost - gasCostUsed
          let state := if 0 < gasRefund then state.AddBalance tx.From gasRefund else state
          { err := none, tx := tx, state := state, bc := bc }

/-- Observation: the balance recorded for an address (0 when absent, the
default a fresh account would be created with). -/
def AccountState.balanceOf (as : AccountState) (address : String) : ℚ :=
  match as.Accounts address with
  | some account => account.Balance
  | none => 0

/-- Observation: the nonce recorded for an address (0 when absent). -/
def AccountState.nonceOf (as : AccountState) (address : String) : ℤ :=
  match as.Accounts address with
  | some account => account.Nonce
  | none => 0

namespace AccountState

theorem nonceOf_GetAccount_snd (as : AccountState) (a x : String) :
    ((as.GetAccount a).2).nonceOf x = as.nonceOf x := by
  unfold GetAccount nonceOf
  cases h : as.Accounts a
  · by_cases hx : x = a <;> simp [h, hx]
  · simp [h]

theorem balanceOf_GetAccount_snd (as : AccountState) (a x : String) :
    ((as.GetAccount a).2).balanceOf x = as.balanceOf x := by
  unfold GetAccount balanceOf
  cases h : as.Accounts a
  · by_cases hx : x = a <;> simp [h, hx]
  · simp [h]

theorem GetAccount_fst_nonce (as : AccountState) (a : String) :
    ((as.GetAccount a).1).Nonce = as.nonceOf a := by
  unfold GetAccount nonceOf
  cases h : as.Accounts a <;> simp [h]

theorem GetAccount_fst_balance (as : AccountState) (a : String) :
    ((as.GetAccount a).1).Balance = as.balanceOf a := by
  unfold GetAccount balanceOf
  cases h : as.Accounts a <;> simp [h]

theorem nonceOf_setAccount (as : AccountState) (a x : String) (acc : Account) :
    (as.setAccount a acc).nonceOf x = if x = a then acc.Nonce else as.nonceOf x := by
  unfold setAccount nonceOf
  by_cases hx : x = a <;> simp [hx]

theorem balanceOf_setAccount (as : AccountState) (a x : String) (acc : Account) :
    (as.setAccount a acc).balanceOf x = if x = a then acc.Balance else as.balanceOf x := by
  unfold setAccount balanceOf
  by_cases hx : x = a <;> simp [hx]

theorem nonceOf_AddBalance (as : AccountState) (a x : String) (amt : ℚ) :
    (as.AddBalance a amt).nonceOf x = as.nonceOf x := by
  unfold AddBalance
  simp only [nonceOf_setAccount, nonceOf_GetAccount_snd, GetAccount_fst_nonce]
  split <;> simp_all

theorem balanceOf_AddBalance (as : AccountState) (a x : String) (amt : ℚ) :
    (as.AddBalance a amt).balanceOf x =
      if x = a then as.balanceOf a + amt else as.balanceOf x := by
  unfold AddBalance
  simp [balanceOf_setAccount, balanceOf_GetAccount_snd, GetAccount_fst_balance]

theorem nonceOf_IncrementNonce (as : AccountState) (a x : String) :
    (as.IncrementNonce a).nonceOf x =
      if x = a then as.nonceOf a + 1 else as.nonceOf x := by
  unfold IncrementNonce
  simp [nonceOf_setAccount, nonceOf_GetAccount_snd, GetAccount_fst_nonce]

theorem balanceOf_IncrementNonce (as : AccountState) (a x : String) :
    (as.IncrementNonce a).balanceOf x = as.balanceOf x := by
  unfold IncrementNonce
  simp only [balanceOf_setAccount, balanceOf_GetAccount_snd, GetAccount_fst_balance]
  split <;> simp_all

theorem SubtractBalance_ok {as as' : AccountState} {a : String} {amt : ℚ}
    (h : as.SubtractBalance a amt = .ok as') :
    (∀ x, as'.nonceOf x = as.nonceOf x) ∧
    (∀ x, as'.balanceOf x = if x = a then as.balanceOf a - amt else as.balanceOf x) ∧
    ¬ as.balanceOf a < amt := by
  unfold SubtractBalance at h
  simp only [] at h
  split at h
  · simp_all
  · injection h with h'
    subst h'
    refine ⟨fun x => ?_, fun x => ?_, ?_⟩
    · simp only [nonceOf_setAccount, nonceOf_GetAccount_snd, GetAccount_fst_nonce]
      split <;> simp_all
    · simp [balanceOf_setAccount, balanceOf_GetAccount_snd, GetAccount_fst_balance]
    · simp_all [GetAccount_fst_balance]

theorem SubtractBalance_error {as : AccountState} {a : String} {amt : ℚ} {e : String}
    (h : as.SubtractBalance a amt = .error e) : as.balanceOf a < amt := by
  unfold SubtractBalance at h
  simp only [] at h
  split at h
  · simp_all [GetAccount_fst_balance]
  · simp_all

theorem SubtractBalance_isOk (as : AccountState) (a : String) (amt : ℚ) :
    (as.SubtractBalance a amt).isOk = true ↔ ¬ as.balanceOf a < amt := by
  unfold SubtractBalance
  simp only []
  split <;> simp_all [GetAccount_fst_balance, Except.isOk, Except.toBool]

end AccountState

theorem ExecuteContract_ok_fields {sha : String → String} {tx tx' : Transaction}
    {bc bc' : Blockchain} (h : tx.ExecuteContract sha bc = .ok (tx', bc')) :
    tx'.From = tx.From ∧ tx'.To = tx.To ∧ tx'.Amount = tx.Amount ∧
    tx'.Data = tx.Data ∧ tx'.Nonce = tx.Nonce := by
  unfold Transaction.ExecuteContract at h
  simp only [] at h
  repeat' split at h
  all_goals first
    | (injection h with h2
       rw [Prod.mk.injEq] at h2
       obtain ⟨h4, h5⟩ := h2
       subst h4
       exact ⟨rfl, rfl, rfl, rfl, rfl⟩)
    | (obtain ⟨h4, h5⟩ := h
       subst h4
       exact ⟨rfl, rfl, rfl, rfl, rfl⟩)
    | simp at h

theorem executeBody1_nonce (tx : Transaction) (st : AccountState) (x : String) :
    ((tx.executeBody1 st).2).nonceOf x = st.nonceOf x := by
  unfold Transaction.executeBody1
  split
  · split
    · rfl
    · rename_i st' h
      split <;>
        simp [AccountState.nonceOf_AddBalance, (AccountState.SubtractBalance_ok h).1 x]
  · rfl

theorem executeBody2_fields (sha : String → String) (tx : Transaction)
    (bc : Blockchain) (gasLimit : ℕ) (e1 : Option String) :
    ((tx.executeBody2 sha bc gasLimit e1).2.1).From = tx.From ∧
    ((tx.executeBody2 sha bc gasLimit e1).2.1).To = tx.To ∧
    ((tx.executeBody2 sha bc gasLimit e1).2.1).Amount = tx.Amount := by
  unfold Transaction.executeBody2
  simp only []
  split
  · split
    · split
      · exact ⟨rfl, rfl, rfl⟩
      · rename_i tx' bc' h
        have hf := ExecuteContract_ok_fields h
        exact ⟨hf.1, hf.2.1, hf.2.2.1⟩
    · split
      · exact ⟨rfl, rfl, rfl⟩
      · rename_i tx' bc' h
        have hf := ExecuteContract_ok_fields h
        exact ⟨hf.1, hf.2.1, hf.2.2.1⟩
  · split
    · exact ⟨rfl, rfl, rfl⟩
    · exact ⟨rfl, rfl, rfl⟩

theorem executeRevert_sender_nonce (st : AccountState) (snap : StateSnapshot)
    (sender : String) :
    (Transaction.executeRevert st snap sender).nonceOf sender = st.nonceOf sender := by
  unfold Transaction.executeRevert
  simp [AccountState.nonceOf_setAccount, AccountState.nonceOf_GetAccount_snd,
    AccountState.GetAccount_fst_nonce]

theorem executeRevert_sender_balance (st : AccountState) (snap : StateSnapshot)
    (sender : String) :
    (Transaction.executeRevert st snap sender).balanceOf sender
      = st.balanceOf sender := by
  unfold Transaction.executeRevert
  simp [AccountState.balanceOf_setAccount, AccountState.balanceOf_GetAccount_snd,
    AccountState.GetAccount_fst_balance]

theorem executeRevert_other (st : AccountState) (snap : StateSnapshot)
    (sender x : String) (hx : x ≠ sender) :
    (Transaction.executeRevert st snap sender).Accounts x =
      match snap.Accounts x with
      | some account => some account
      | none => st.Accounts x := by
  unfold Transaction.executeRevert AccountState.RevertToSnapshot
    AccountState.setAccount AccountState.GetAccount
  cases hsnap : snap.Accounts x <;>
    cases hst : st.Accounts sender <;>
      simp_all [hx] <;>
        (repeat' split) <;>
          simp_all

theorem execute_err_iff (sha : String → String) (tx : Transaction)
    (state : AccountState) (bc : Blockchain) :
    (Transaction.Execute sha tx state bc).err = none ↔
      ¬ (state.balanceOf tx.From < tx.Amount + (tx.gasLimitOf bc : ℚ) * gasPrice ∨
         state.balanceOf tx.From < (tx.gasLimitOf bc : ℚ) * gasPrice) := by
  unfold Transaction.Execute
  simp only [AccountState.GetAccount_fst_balance]
  split
  · simp_all
  · rename_i hbal
    split
    · rename_i e herr
      have := AccountState.SubtractBalance_error herr
      simp only [AccountState.balanceOf_GetAccount_snd] at this
      simp_all
    · rename_i st' hok
      have hsub := (AccountState.SubtractBalance_ok hok).2.2
      simp only [AccountState.balanceOf_GetAccount_snd] at hsub
      constructor
      · intro _; push_neg; exact ⟨le_of_not_lt hbal, le_of_not_lt hsub⟩
      · intro _
        split <;> rfl

theorem execute_nonce (sha : String → String) (tx : Transaction)
    (state : AccountState) (bc : Blockchain)
    (h : (Transaction.Execute sha tx state bc).err = none) :
    (Transaction.Execute sha tx state bc).state.nonceOf tx.From
      = state.nonceOf tx.From + 1 := by
  revert h
  unfold Transaction.Execute
  simp only []
  split
  · intro h; simp at h
  · split
    · intro h; simp at h
    · rename_i st1 hok
      intro _
      have hn1 : ∀ x, st1.nonceOf x = state.nonceOf x := by
        intro x
        exact ((AccountState.SubtractBalance_ok hok).1 x).trans
          (AccountState.nonceOf_GetAccount_snd state tx.From x)
      have hFrom := (executeBody2_fields sha tx bc (tx.gasLimitOf bc)
        (tx.executeBody1 (st1.IncrementNonce tx.From)).1).1
      split
      · -- revert path
        simp only [hFrom, executeRevert_sender_nonce, executeBody1_nonce,
          AccountState.nonceOf_IncrementNonce, hn1]
        simp
      · -- success path
        split <;>
          (simp only [AccountState.nonceOf_AddBalance, executeBody1_nonce,
            AccountState.nonceOf_IncrementNonce, hn1]
           simp)

/-- A deterministic account state used to instantiate theorems with
hypotheses at a concrete input: alice holds 10 MTC at nonce 0. -/
def stAlice : AccountState :=
  ⟨fun a => if a = "alice" then some ⟨"alice", 10, 0⟩ else none⟩

/-- A blockchain with no contracts (for plain-transfer scenarios). -/
def bcEmpty : Blockchain :=
  { Blocks := [], Difficulty := 2, AccountState := AccountState.new,
    PendingTxs := [], Contracts := fun _ => none }

/-- A plain transfer of 2 MTC from alice to bob. -/
def txTransfer : Transaction :=
  { From := "alice", To := "bob", Amount := 2, Nonce := 0, Data := [],
    Signature := "", ContractAddress := "", GasUsed := 0 }

/-- C2: for every transaction that `Transaction.Execute` applies (both
pre-execution checks passed, observable as the Go function returning `nil`),
the sender's nonce after `Execute` is exactly its nonce before plus one —
also on the revert path, which re-imposes the already-incremented nonce
after restoring the snapshot. -/
theorem C2_nonce_increments_exactly_once (sha : String → String)
    (tx : Transaction) (state : AccountState) (bc : Blockchain)
    (h : (Transaction.Execute sha tx state bc).err = none) :
    (Transaction.Execute sha tx state bc).state.nonceOf tx.From
      = state.nonceOf tx.From + 1 :=
  execute_nonce sha tx state bc h

set_option maxHeartbeats 1000000 in
/-- Witness for C2 at a concrete input: the alice-to-bob transfer executes
(returns `nil`) and leaves alice at nonce 1. -/
theorem C2_nonce_increments_exactly_once_witness :
    (Transaction.Execute (fun _ => "") txTransfer stAlice bcEmpty).state.nonceOf
        txTransfer.From
      = stAlice.nonceOf txTransfer.From + 1 :=
  C2_nonce_increments_exactly_once (fun _ => "") txTransfer stAlice bcEmpty (by
    have hlt : ¬ ((10:ℚ) < 2 + 21000 * gasPrice) := by unfold gasPrice; norm_num
    have hlt2 : ¬ ((10:ℚ) < 21000 * gasPrice) := by unfold gasPrice; norm_num
    have hlt3 : ¬ ((10:ℚ) - 21000 * gasPrice < 2) := by unfold gasPrice; norm_num
    simp [Transaction.Execute, Transaction.gasLimitOf, Transaction.IsContractDeployment,
      Transaction.IsContractCall, Transaction.executeBody1, Transaction.executeBody2,
      txTransfer, stAlice, bcEmpty, AccountState.GetAccount,
      AccountState.SubtractBalance, AccountState.AddBalance, AccountState.IncrementNonce,
      AccountState.setAccount, AccountState.CreateSnapshot, AccountState.RevertToSnapshot,
      hlt, hlt2, hlt3])

/-- C9: `Transaction.Execute` returns a non-nil error exactly when one of
the two pre-execution checks fails — the balance check against
`amount + gas_limit x gas_price`, or the max-gas reservation debit; a
transaction whose BODY fails is reverted and still returns `nil`, so callers
cannot distinguish a reverted transaction from a successful one. -/
theorem C9_error_only_from_prechecks (sha : String → String) (tx : Transaction)
    (state : AccountState) (bc : Blockchain) :
    (Transaction.Execute sha tx state bc).err = none ↔
      ¬ (state.balanceOf tx.From < tx.Amount + (tx.gasLimitOf bc : ℚ) * gasPrice ∨
         state.balanceOf tx.From < (tx.gasLimitOf bc : ℚ) * gasPrice) :=
  execute_err_iff sha tx state bc

/-- C3: the gas-limit estimate of `Transaction.Execute` is
`32000 + 200 x len(Data)` for a contract deployment, `1,000,000` for a
contract call and `21,000` for a pure value transfer (no data, no call, no
deploy); and `Execute` refuses the transaction — an error with every
account balance and nonce unchanged — whenever the sender balance is below
`amount + gas_limit x 0.000001` (for the nonnegative amounts that pass
`Validate`, this threshold exactly characterizes acceptance). -/
theorem C3_gas_limit_and_balance_check (sha : String → String) (tx : Transaction)
    (state : AccountState) (bc : Blockchain) :
    (tx.IsContractDeployment = true →
        tx.gasLimitOf bc = 32000 + 200 * tx.Data.length) ∧
    (tx.IsContractCall bc = true → tx.gasLimitOf bc = 1000000) ∧
    (tx.IsContractDeployment = false → tx.IsContractCall bc = false →
        tx.Data = [] → tx.gasLimitOf bc = 21000) ∧
    (0 ≤ tx.Amount →
        ((Transaction.Execute sha tx state bc).err = none ↔
          tx.Amount + (tx.gasLimitOf bc : ℚ) * gasPrice ≤ state.balanceOf tx.From)) ∧
    (state.balanceOf tx.From < tx.Amount + (tx.gasLimitOf bc : ℚ) * gasPrice →
        (Transaction.Execute sha tx state bc).err ≠ none ∧
        (∀ x, (Transaction.Execute sha tx state bc).state.balanceOf x
                = state.balanceOf x) ∧
        (∀ x, (Transaction.Execute sha tx state bc).state.nonceOf x
                = state.nonceOf x)) := by
  refine ⟨?_, ?_, ?_, ?_, ?_⟩
  · intro h
    unfold Transaction.gasLimitOf
    rw [if_pos h]
    ring
  · intro h
    have hdep : tx.IsContractDeployment = false := by
      unfold Transaction.IsContractCall at h
      unfold Transaction.IsContractDeployment
      by_cases hTo : tx.To = "" <;> simp_all
    unfold Transaction.gasLimitOf
    rw [hdep]
    simp [h]
  · intro h1 h2 h3
    unfold Transaction.gasLimitOf
    simp [h1, h2, h3]
  · intro hamt
    rw [execute_err_iff]
    constructor
    · intro hc
      rw [not_or] at hc
      exact le_of_not_lt hc.1
    · intro hle
      rw [not_or]
      refine ⟨not_lt_of_le hle, not_lt_of_le ?_⟩
      calc (tx.gasLimitOf bc : ℚ) * gasPrice
          ≤ tx.Amount + (tx.gasLimitOf bc : ℚ) * gasPrice := by linarith
        _ ≤ state.balanceOf tx.From := hle
  · intro hbal
    have herr : ¬ ((Transaction.Execute sha tx state bc).err = none) := by
      intro hc
      exact (execute_err_iff sha tx state bc).mp hc (.inl hbal)
    refine ⟨herr, ?_, ?_⟩ <;> intro x <;>
      · unfold Transaction.Execute
        simp only [AccountState.GetAccount_fst_balance]
        split
        · simp [AccountState.balanceOf_GetAccount_snd, AccountState.nonceOf_GetAccount_snd]
        · rename_i hno
          exact absurd hbal hno

/-- C4 counterexample: create a snapshot of the empty account state, then
create an account by adding balance; `RevertToSnapshot` does NOT remove the
account created after the snapshot, so the map does not return to the deep
copy captured in the snapshot. -/
theorem C4_counterexample_created_account_survives_revert :
    ((AccountState.new.AddBalance "a" 5).RevertToSnapshot
        AccountState.new.CreateSnapshot).Accounts "a"
      = some { Address := "a", Balance := 5, Nonce := 0 } ∧
    AccountState.new.CreateSnapshot.Accounts "a" = none := by
  constructor
  · simp [AccountState.new, AccountState.AddBalance, AccountState.GetAccount,
      AccountState.setAccount, AccountState.CreateSnapshot, AccountState.RevertToSnapshot]
  · rfl

/-- C4 amended: `RevertToSnapshot` writes back exactly the accounts present
in the snapshot; accounts absent from the snapshot keep their current
(post-snapshot) values, so the round trip restores the snapshot on the
snapshot's domain, and the whole map equals the snapshot if and only if
every address outside the snapshot's domain is also absent from the current
map (i.e. no account was created since the snapshot). -/
theorem C4_amended_revert_restores_snapshot_domain (s : AccountState)
    (snap : StateSnapshot) :
    (∀ x acc, snap.Accounts x = some acc →
        (s.RevertToSnapshot snap).Accounts x = some acc) ∧
    (∀ x, snap.Accounts x = none →
        (s.RevertToSnapshot snap).Accounts x = s.Accounts x) ∧
    ((∀ x, (s.RevertToSnapshot snap).Accounts x = snap.Accounts x) ↔
      (∀ x, snap.Accounts x = none → s.Accounts x = none)) := by
  refine ⟨?_, ?_, ?_⟩
  · intro x acc h
    simp [AccountState.RevertToSnapshot, h]
  · intro x h
    simp [AccountState.RevertToSnapshot, h]
  · constructor
    · intro hall x hnone
      have := hall x
      simp [AccountState.RevertToSnapshot, hnone] at this
      exact this
    · intro hnone x
      cases h : snap.Accounts x with
      | some acc => simp [AccountState.RevertToSnapshot, h]
      | none => simp [AccountState.RevertToSnapshot, h, hnone x h]

namespace AccountState

theorem GetAccount_snd_Accounts_other (as : AccountState) (a x : String) (hx : x ≠ a) :
    ((as.GetAccount a).2).Accounts x = as.Accounts x := by
  unfold GetAccount
  cases h : as.Accounts a <;> simp [h, hx]

theorem setAccount_Accounts_other (as : AccountState) (a x : String) (acc : Account)
    (hx : x ≠ a) : (as.setAccount a acc).Accounts x = as.Accounts x := by
  simp [setAccount, hx]

theorem AddBalance_Accounts_other (as : AccountState) (a x : String) (amt : ℚ)
    (hx : x ≠ a) : (as.AddBalance a amt).Accounts x = as.Accounts x := by
  unfold AddBalance
  rw [setAccount_Accounts_other _ _ _ _ hx, GetAccount_snd_Accounts_other _ _ _ hx]

theorem SubtractBalance_ok_Accounts_other {as as' : AccountState} {a : String} {amt : ℚ}
    (h : as.SubtractBalance a amt = .ok as') (x : String) (hx : x ≠ a) :
    as'.Accounts x = as.Accounts x := by
  unfold SubtractBalance at h
  simp only [] at h
  split at h
  · simp at h
  · injection h with h'
    subst h'
    rw [setAccount_Accounts_other _ _ _ _ hx, GetAccount_snd_Accounts_other _ _ _ hx]

theorem IncrementNonce_Accounts_other (as : AccountState) (a x : String)
    (hx : x ≠ a) : (as.IncrementNonce a).Accounts x = as.Accounts x := by
  unfold IncrementNonce
  rw [setAccount_Accounts_other _ _ _ _ hx, GetAccount_snd_Accounts_other _ _ _ hx]

end AccountState

theorem executeBody1_Accounts_other (tx : Transaction) (st : AccountState)
    (x : String) (hf : x ≠ tx.From) (ht : x ≠ tx.To) :
    ((tx.executeBody1 st).2).Accounts x = st.Accounts x := by
  unfold Transaction.executeBody1
  split
  · split
    · rfl
    · rename_i st' h
      split
      · rw [AccountState.AddBalance_Accounts_other _ _ _ _ ht,
          AccountState.SubtractBalance_ok_Accounts_other h x hf]
      · rw [AccountState.SubtractBalance_ok_Accounts_other h x hf]
  · rfl

theorem executeBody1_transfer_spec (tx : Transaction) (st : AccountState)
    (h2 : 0 < tx.Amount) (hbal : ¬ st.balanceOf tx.From < tx.Amount)
    (hTo : tx.To ≠ "") (hne : tx.To ≠ tx.From) :
    (tx.executeBody1 st).1 = none ∧
    ((tx.executeBody1 st).2).balanceOf tx.From = st.balanceOf tx.From - tx.Amount ∧
    ((tx.executeBody1 st).2).balanceOf tx.To = st.balanceOf tx.To + tx.Amount := by
  unfold Transaction.executeBody1
  rw [if_pos h2]
  cases h : st.SubtractBalance tx.From tx.Amount with
  | error e => exact absurd (AccountState.SubtractBalance_error h) hbal
  | ok st' =>
      have hs := (AccountState.SubtractBalance_ok h).2.1
      dsimp only
      rw [if_pos hTo]
      refine ⟨rfl, ?_, ?_⟩
      · rw [AccountState.balanceOf_AddBalance, if_neg (Ne.symm hne), hs tx.From,
          if_pos rfl]
      · rw [AccountState.balanceOf_AddBalance, if_pos rfl, hs tx.To, if_neg hne]

theorem executeBody2_error_spec (sha : String → String) (tx : Transaction)
    (bc : Blockchain) (gl : ℕ) {e : String}
    (hcall : tx.IsContractCall bc = true)
    (hfail : tx.ExecuteContract sha bc = .error e) :
    (tx.executeBody2 sha bc gl none).1 = some ("error ejecutando contrato: " ++ e) ∧
    (tx.executeBody2 sha bc gl none).2.2 = bc := by
  unfold Transaction.executeBody2
  rw [if_pos (by simp [hcall])]
  rw [hfail]
  dsimp only
  split <;> exact ⟨rfl, rfl⟩

theorem revertStorages_single (bc : Blockchain) (toAddr : String) (c0 : Contract)
    (h : bc.Contracts toAddr = some c0) (x : String) :
    (bc.revertStorages [(toAddr, c0.Storage.CreateSnapshot)]).Contracts x
      = bc.Contracts x := by
  unfold Blockchain.revertStorages
  simp only [List.foldl_cons, List.foldl_nil, h]
  unfold Blockchain.setContractStorage
  by_cases hx : x = toAddr
  · subst hx
    simp [h, Storage.RevertToSnapshot, Storage.CreateSnapshot]
  · simp [hx]

/-- Full characterization of `Transaction.Execute` on a value-carrying
contract call whose contract execution fails: the reserved gas stays
debited, the nonce stays incremented, `GasUsed` is forced to the gas limit
and `Execute` returns nil; but the sender ALSO keeps the amount debit (the
revert re-imposes the sender's current balance, not just the gas debit), and
a recipient account created during the body survives the revert with the
credited amount (RevertToSnapshot does not delete accounts missing from the
snapshot); accounts in the snapshot and the affected contract storage are
restored. -/
theorem execute_failed_call_spec (sha : String → String) (tx : Transaction)
    (state : AccountState) (bc : Blockchain)
    (hcall : tx.IsContractCall bc = true)
    (hamt : 0 < tx.Amount)
    (hbal : ¬ state.balanceOf tx.From
              < tx.Amount + (tx.gasLimitOf bc : ℚ) * gasPrice)
    (e : String) (hfail : tx.ExecuteContract sha bc = .error e)
    (hne : tx.To ≠ tx.From) :
    (Transaction.Execute sha tx state bc).err = none ∧
    (Transaction.Execute sha tx state bc).tx.GasUsed = tx.gasLimitOf bc ∧
    (Transaction.Execute sha tx state bc).state.nonceOf tx.From
      = state.nonceOf tx.From + 1 ∧
    (Transaction.Execute sha tx state bc).state.balanceOf tx.From
      = state.balanceOf tx.From - (tx.gasLimitOf bc : ℚ) * gasPrice - tx.Amount ∧
    (state.Accounts tx.To = none →
      (Transaction.Execute sha tx state bc).state.balanceOf tx.To = tx.Amount) ∧
    (∀ x, x ≠ tx.From → x ≠ tx.To →
      (Transaction.Execute sha tx state bc).state.Accounts x = state.Accounts x) ∧
    (∀ x, (Transaction.Execute sha tx state bc).bc.Contracts x = bc.Contracts x) := by
  have hTo : tx.To ≠ "" := by
    unfold Transaction.IsContractCall at hcall
    by_cases h : tx.To = "" <;> simp_all
  obtain ⟨c0, hc0⟩ : ∃ c0, bc.Contracts tx.To = some c0 := by
    unfold Transaction.IsContractCall at hcall
    rw [if_neg hTo] at hcall
    exact Option.isSome_iff_exists.mp hcall
  unfold Transaction.Execute
  simp only [AccountState.GetAccount_fst_balance]
  rw [if_neg hbal]
  simp only [hcall, if_pos, hc0]
  cases h1 : (state.GetAccount tx.From).2.SubtractBalance tx.From
      ((tx.gasLimitOf bc : ℚ) * gasPrice) with
  | error e1 =>
      exfalso
      have := AccountState.SubtractBalance_error h1
      rw [AccountState.balanceOf_GetAccount_snd] at this
      have : tx.Amount + (tx.gasLimitOf bc : ℚ) * gasPrice
               ≤ state.balanceOf tx.From := le_of_not_lt hbal
      linarith [AccountState.SubtractBalance_error h1,
        (AccountState.balanceOf_GetAccount_snd state tx.From tx.From)]
  | ok st1 =>
      dsimp only
      have hsub := AccountState.SubtractBalance_ok h1
      have hsb : ∀ x, st1.balanceOf x = if x = tx.From
          then state.balanceOf tx.From - (tx.gasLimitOf bc : ℚ) * gasPrice
          else state.balanceOf x := by
        intro x
        rw [hsub.2.1 x]
        simp only [AccountState.balanceOf_GetAccount_snd]
      have hsn : ∀ x, st1.nonceOf x = state.nonceOf x := by
        intro x
        rw [hsub.1 x]
        simp only [AccountState.nonceOf_GetAccount_snd]
      have hbal2 : ¬ (st1.IncrementNonce tx.From).balanceOf tx.From < tx.Amount := by
        rw [AccountState.balanceOf_IncrementNonce, hsb tx.From, if_pos rfl]
        intro hcon
        exact hbal (by linarith)
      have hb1 := executeBody1_transfer_spec tx (st1.IncrementNonce tx.From)
        hamt hbal2 hTo hne
      have hb2 := executeBody2_error_spec sha tx bc (tx.gasLimitOf bc) hcall hfail
      rw [hb1.1, hb2.1]
      dsimp only
      have hFrom := (executeBody2_fields sha tx bc (tx.gasLimitOf bc) none).1
      rw [hFrom]
      have hacc : ∀ x, x ≠ tx.From →
          (Transaction.executeRevert ((tx.executeBody1 (st1.IncrementNonce tx.From)).2)
            ((state.GetAccount tx.From).2.CreateSnapshot) tx.From).Accounts x
          = match ((state.GetAccount tx.From).2.CreateSnapshot).Accounts x with
            | some account => some account
            | none => ((tx.executeBody1 (st1.IncrementNonce tx.From)).2).Accounts x :=
        fun x hx => executeRevert_other _ _ _ _ hx
      refine ⟨rfl, rfl, ?_, ?_, ?_, ?_, ?_⟩
      · -- nonce of sender
        rw [executeRevert_sender_nonce, executeBody1_nonce,
          AccountState.nonceOf_IncrementNonce, if_pos rfl, hsn]
      · -- balance of sender
        rw [executeRevert_sender_balance, hb1.2.1,
          AccountState.balanceOf_IncrementNonce, hsb tx.From, if_pos rfl]
      · -- created recipient survives with the credited amount
        intro hToNone
        have hsnap : ((state.GetAccount tx.From).2.CreateSnapshot).Accounts tx.To
            = none := by
          show (state.GetAccount tx.From).2.Accounts tx.To = none
          rw [AccountState.GetAccount_snd_Accounts_other state tx.From tx.To hne]
          exact hToNone
        have h2 := hacc tx.To hne
        rw [hsnap] at h2
        dsimp only at h2
        have hline : (Transaction.executeRevert
              ((tx.executeBody1 (st1.IncrementNonce tx.From)).2)
              ((state.GetAccount tx.From).2.CreateSnapshot) tx.From).balanceOf tx.To
            = ((tx.executeBody1 (st1.IncrementNonce tx.From)).2).balanceOf tx.To := by
          unfold AccountState.balanceOf
          rw [h2]
        rw [hline, hb1.2.2, AccountState.balanceOf_IncrementNonce, hsb tx.To,
          if_neg hne]
        unfold AccountState.balanceOf
        rw [hToNone]
        ring
      · -- untouched accounts are restored
        intro x hxF hxT
        rw [hacc x hxF]
        have hsnapx : ((state.GetAccount tx.From).2.CreateSnapshot).Accounts x
            = state.Accounts x := by
          unfold AccountState.CreateSnapshot
          exact AccountState.GetAccount_snd_Accounts_other state tx.From x hxF
        rw [hsnapx]
        cases hsx : state.Accounts x with
        | some acc => rfl
        | none =>
            dsimp only
            rw [executeBody1_Accounts_other tx _ x hxF hxT,
              AccountState.IncrementNonce_Accounts_other _ _ _ hxF,
              AccountState.SubtractBalance_ok_Accounts_other h1 x hxF,
              AccountState.GetAccount_snd_Accounts_other state tx.From x hxF]
            exact hsx
      · -- contract storages restored
        intro x
        rw [hb2.2]
        exact revertStorages_single bc tx.To c0 hc0 x

/-- A contract whose bytecode is the single unimplemented opcode JUMP
(0x56): running it always fails with an unimplemented-opcode error. -/
def contractJump : Contract :=
  { Address := "c", Owner := "owner", Bytecode := [0x56],
    Storage := Storage.new, Balance := 0 }

/-- A blockchain holding only `contractJump` at address "c". -/
def bcJump : Blockchain :=
  { Blocks := [], Difficulty := 2, AccountState := AccountState.new,
    PendingTxs := [],
    Contracts := fun a => if a = "c" then some contractJump else none }

/-- A contract call from alice to "c" carrying 1 MTC. -/
def txCallC : Transaction :=
  { From := "alice", To := "c", Amount := 1, Nonce := 0, Data := [],
    Signature := "", ContractAddress := "", GasUsed := 0 }

/-- Evaluation fact: the call to `contractJump` fails in the interpreter, so
`ExecuteContract` returns an error. -/
theorem txCallC_ExecuteContract_fails :
    txCallC.ExecuteContract (fun _ => "") bcJump = .error "error ejecutando contrato" := by
  unfold Transaction.ExecuteContract
  rw [if_neg (by simp [txCallC, Transaction.IsContractDeployment])]
  rw [if_pos (by simp [txCallC, Transaction.IsContractCall, bcJump])]
  have hrun : EVMInterpreter.Run
      { Stack := Stack.new, Memory := Memory.new, Storage := contractJump.Storage,
        Code := contractJump.Bytecode, PC := 0, Gas := 1000000, Stopped := false }
      = .error "error ejecutando opcode" := by
    rw [EVMInterpreter.Run]
    simp [contractJump, EVMInterpreter.ExecuteOpcode, GetGasCost, OpCode.STOP, OpCode.ADD,
      OpCode.MUL, OpCode.SUB, OpCode.DIV, OpCode.MOD, OpCode.LT, OpCode.GT,
      OpCode.EQ, OpCode.POP, OpCode.MLOAD, OpCode.MSTORE, OpCode.SLOAD,
      OpCode.SSTORE, OpCode.JUMP, OpCode.JUMPI, OpCode.PC, OpCode.PUSH1,
      OpCode.PUSH2, OpCode.PUSH3, OpCode.PUSH4, OpCode.PUSH5, OpCode.PUSH32,
      OpCode.DUP1, OpCode.DUP2, OpCode.SWAP1, OpCode.SWAP2, OpCode.RETURN]
  simp [txCallC, bcJump, Blockchain.GetContract, Contract.Execute, hrun]

/-- C1 counterexample: alice (10 MTC) calls contract "c" with amount 1; the
contract execution fails and is reverted.  The claim predicts alice ends at
`10 - gas = 9` and the credited recipient account is restored to its
pre-transaction (absent) state; the code leaves alice at `10 - gas - 1 = 8`
(the amount debit survives the revert) and the account "c" created during
the failed body survives holding the credited 1 MTC. -/
theorem C1_counterexample_revert_keeps_amount_debit :
    (Transaction.Execute (fun _ => "") txCallC stAlice bcJump).state.balanceOf "alice"
        = 8 ∧
    stAlice.balanceOf "alice" - (txCallC.gasLimitOf bcJump : ℚ) * gasPrice = 9 ∧
    ((8 : ℚ) = 9 → False) ∧
    (Transaction.Execute (fun _ => "") txCallC stAlice bcJump).state.balanceOf "c"
        = 1 ∧
    stAlice.Accounts "c" = none := by
  have hG : txCallC.gasLimitOf bcJump = 1000000 := by
    unfold Transaction.gasLimitOf
    rw [if_neg (by simp [txCallC, Transaction.IsContractDeployment])]
    rw [if_pos (by simp [txCallC, Transaction.IsContractCall, bcJump])]
  have hs := execute_failed_call_spec (fun _ => "") txCallC stAlice bcJump
    (by simp [txCallC, Transaction.IsContractCall, bcJump])
    (by norm_num [txCallC])
    (by rw [hG]; norm_num [txCallC, stAlice, AccountState.balanceOf, gasPrice])
    "error ejecutando contrato" txCallC_ExecuteContract_fails
    (by simp [txCallC])
  refine ⟨?_, ?_, by norm_num, ?_, rfl⟩
  · show (Transaction.Execute (fun _ => "") txCallC stAlice bcJump).state.balanceOf
        txCallC.From = 8
    have h := hs.2.2.2.1
    rw [hG] at h
    rw [h]
    norm_num [stAlice, txCallC, AccountState.balanceOf, gasPrice]
  · rw [hG]
    norm_num [stAlice, AccountState.balanceOf, gasPrice]
  · show (Transaction.Execute (fun _ => "") txCallC stAlice bcJump).state.balanceOf
        txCallC.To = 1
    exact hs.2.2.2.2.1 (by simp [stAlice, txCallC])

/-- C1 (amended): when a value-carrying contract call fails during body
execution, `Transaction.Execute` undoes the mutations of every account
present in the snapshot and restores the affected contract storage, returns
nil and forces `tx.GasUsed` to the gas limit; the sender's nonce stays
incremented and the reserved gas debit stays applied — but the sender also
keeps the amount debit applied before the failure (the revert re-imposes the
sender's whole current balance), and an account first created during the
failed execution (the credited recipient) is NOT removed: it survives with
the credited amount. -/
theorem C1_amended_revert_scope (sha : String → String) (tx : Transaction)
    (state : AccountState) (bc : Blockchain)
    (hcall : tx.IsContractCall bc = true)
    (hamt : 0 < tx.Amount)
    (hbal : ¬ state.balanceOf tx.From
              < tx.Amount + (tx.gasLimitOf bc : ℚ) * gasPrice)
    (e : String) (hfail : tx.ExecuteContract sha bc = .error e)
    (hne : tx.To ≠ tx.From) :
    (Transaction.Execute sha tx state bc).err = none ∧
    (Transaction.Execute sha tx state bc).tx.GasUsed = tx.gasLimitOf bc ∧
    (Transaction.Execute sha tx state bc).state.nonceOf tx.From
      = state.nonceOf tx.From + 1 ∧
    (Transaction.Execute sha tx state bc).state.balanceOf tx.From
      = state.balanceOf tx.From - (tx.gasLimitOf bc : ℚ) * gasPrice - tx.Amount ∧
    (state.Accounts tx.To = none →
      (Transaction.Execute sha tx state bc).state.balanceOf tx.To = tx.Amount) ∧
    (∀ x, x ≠ tx.From → x ≠ tx.To →
      (Transaction.Execute sha tx state bc).state.Accounts x = state.Accounts x) ∧
    (∀ x, (Transaction.Execute sha tx state bc).bc.Contracts x = bc.Contracts x) :=
  execute_failed_call_spec sha tx state bc hcall hamt hbal e hfail hne

/-- Witness for the amended C1 at the concrete failing call: alice ends at
8 MTC (gas and amount both kept debited), nonce 1, recipient "c" created
with 1 MTC, `GasUsed` = 1,000,000, `Execute` returns nil. -/
theorem C1_amended_revert_scope_witness :
    (Transaction.Execute (fun _ => "") txCallC stAlice bcJump).err = none ∧
    (Transaction.Execute (fun _ => "") txCallC stAlice bcJump).tx.GasUsed
      = txCallC.gasLimitOf bcJump ∧
    (Transaction.Execute (fun _ => "") txCallC stAlice bcJump).state.nonceOf
        txCallC.From = stAlice.nonceOf txCallC.From + 1 ∧
    (Transaction.Execute (fun _ => "") txCallC stAlice bcJump).state.balanceOf
        txCallC.From
      = stAlice.balanceOf txCallC.From
          - (txCallC.gasLimitOf bcJump : ℚ) * gasPrice - txCallC.Amount ∧
    (stAlice.Accounts txCallC.To = none →
      (Transaction.Execute (fun _ => "") txCallC stAlice bcJump).state.balanceOf
          txCallC.To = txCallC.Amount) ∧
    (∀ x, x ≠ txCallC.From → x ≠ txCallC.To →
      (Transaction.Execute (fun _ => "") txCallC stAlice bcJump).state.Accounts x
        = stAlice.Accounts x) ∧
    (∀ x, (Transaction.Execute (fun _ => "") txCallC stAlice bcJump).bc.Contracts x
        = bcJump.Contracts x) :=
  C1_amended_revert_scope (fun _ => "") txCallC stAlice bcJump
    (by simp [txCallC, Transaction.IsContractCall, bcJump])
    (by norm_num [txCallC])
    (by
      have hG : txCallC.gasLimitOf bcJump = 1000000 := by
        unfold Transaction.gasLimitOf
        rw [if_neg (by simp [txCallC, Transaction.IsContractDeployment])]
        rw [if_pos (by simp [txCallC, Transaction.IsContractCall, bcJump])]
      rw [hG]
      norm_num [txCallC, stAlice, AccountState.balanceOf, gasPrice])
    "error ejecutando contrato" txCallC_ExecuteContract_fails
    (by simp [txCallC])

/-- C10: for every PUSHk opcode, `opPush` errors exactly when fewer than k
payload bytes remain after the opcode byte (`PC + k >= len(Code)`), and
otherwise succeeds reading exactly the k bytes `Code[PC+1 : PC+1+k]` — a
slice that lies entirely inside the code — and advances PC by k; it never
indexes the code slice out of bounds. -/
theorem C10_opPush_never_reads_out_of_bounds (op : OpCode) (ctx : ExecutionContext)
    (hop : op = OpCode.PUSH1 ∨ op = OpCode.PUSH2 ∨ op = OpCode.PUSH3 ∨
           op = OpCode.PUSH4 ∨ op = OpCode.PUSH5 ∨ op = OpCode.PUSH32) :
    (ctx.Code.length ≤ ctx.PC + op.PushSize →
        EVMInterpreter.opPush op ctx = .error "codigo incompleto para PUSH") ∧
    (ctx.PC + op.PushSize < ctx.Code.length →
        EVMInterpreter.opPush op ctx = .ok
          { ctx with
              Stack := ctx.Stack.pushIgnore
                (bytesToNat ((ctx.Code.drop (ctx.PC + 1)).take op.PushSize) : ℤ),
              PC := ctx.PC + op.PushSize } ∧
        ((ctx.Code.drop (ctx.PC + 1)).take op.PushSize).length = op.PushSize ∧
        ctx.PC + 1 + op.PushSize ≤ ctx.Code.length) := by
  clear hop
  constructor
  · intro h
    unfold EVMInterpreter.opPush
    rw [if_pos h]
  · intro h
    unfold EVMInterpreter.opPush
    rw [if_neg (not_le_of_lt h)]
    refine ⟨rfl, ?_, by omega⟩
    rw [List.length_take, List.length_drop]
    omega

/-- Witness for C10 at concrete inputs: a PUSH2 at the end of a 2-byte code
(one payload byte short) errors; a PUSH1 with its payload present succeeds
and reads exactly one in-bounds byte. -/
theorem C10_opPush_never_reads_out_of_bounds_witness :
    (EVMInterpreter.opPush OpCode.PUSH2
        { Stack := Stack.new, Memory := Memory.new, Storage := Storage.new,
          Code := [0x61, 0xaa], PC := 0, Gas := 100, Stopped := false }
      = .error "codigo incompleto para PUSH") ∧
    (EVMInterpreter.opPush OpCode.PUSH1
        { Stack := Stack.new, Memory := Memory.new, Storage := Storage.new,
          Code := [0x60, 0xaa], PC := 0, Gas := 100, Stopped := false }).isOk
      = true := by
  constructor
  · exact (C10_opPush_never_reads_out_of_bounds OpCode.PUSH2
      { Stack := Stack.new, Memory := Memory.new, Storage := Storage.new,
        Code := [0x61, 0xaa], PC := 0, Gas := 100, Stopped := false }
      (by decide)).1 (by decide)
  · rw [((C10_opPush_never_reads_out_of_bounds OpCode.PUSH1
      { Stack := Stack.new, Memory := Memory.new, Storage := Storage.new,
        Code := [0x60, 0xaa], PC := 0, Gas := 100, Stopped := false }
      (by decide)).2 (by decide)).1]
    rfl

/-- An execution context whose stack already holds 1024 values and whose
code is a single `PUSH1 0x00`. -/
def ctxFullStack : ExecutionContext :=
  { Stack := ⟨List.replicate 1024 0⟩, Memory := Memory.new,
    Storage := Storage.new, Code := [0x60, 0x00], PC := 0, Gas := 1000000,
    Stopped := false }

set_option maxRecDepth 8000 in
/-- C7 evaluation (code bug): pushing onto a full stack makes `Stack.Push`
return a stack-overflow error, but the opcode handlers discard that error,
so `Run` completes WITHOUT an error and with the pushed value silently
dropped — the stack still holds its 1024 old values. -/
theorem C7_stack_overflow_silently_dropped :
    (Stack.mk (List.replicate 1024 0)).Push 0
        = .error "stack overflow: maximo 1024 elementos" ∧
    EVMInterpreter.Run ctxFullStack
      = .ok { Stack := ⟨List.replicate 1024 0⟩, Memory := Memory.new,
              Storage := Storage.new, Code := [0x60, 0x00], PC := 2,
              Gas := 999997, Stopped := false } := by
  constructor
  · rw [Stack.Push]
    simp
  · have hexec : EVMInterpreter.ExecuteOpcode ([(96:ℕ), 0].getD 0 0)
        { Stack := ⟨List.replicate 1024 0⟩, Memory := Memory.new,
          Storage := Storage.new, Code := [96, 0], PC := 0,
          Gas := 1000000 - GetGasCost ([(96:ℕ), 0].getD 0 0), Stopped := false }
        = .ok { Stack := ⟨List.replicate 1024 0⟩, Memory := Memory.new,
                Storage := Storage.new, Code := [96, 0], PC := 1,
                Gas := 999997, Stopped := false } := by
      norm_num [EVMInterpreter.ExecuteOpcode, EVMInterpreter.opPush, GetGasCost,
        OpCode.STOP, OpCode.ADD, OpCode.MUL, OpCode.SUB, OpCode.DIV, OpCode.MOD,
        OpCode.LT, OpCode.GT, OpCode.EQ, OpCode.POP, OpCode.MLOAD, OpCode.MSTORE,
        OpCode.SLOAD, OpCode.SSTORE, OpCode.JUMP, OpCode.JUMPI, OpCode.PC,
        OpCode.PUSH1, OpCode.PUSH2, OpCode.PUSH3, OpCode.PUSH4, OpCode.PUSH5,
        OpCode.PUSH32, OpCode.DUP1, OpCode.DUP2, OpCode.SWAP1, OpCode.SWAP2,
        OpCode.RETURN, OpCode.PushSize, OpCode.IsJump, Stack.pushIgnore,
        Stack.Push, bytesToNat]
    rw [EVMInterpreter.Run]
    simp only [ctxFullStack]
    norm_num [GetGasCost, OpCode.STOP, OpCode.ADD, OpCode.MUL, OpCode.SUB,
      OpCode.DIV, OpCode.MOD, OpCode.LT, OpCode.GT, OpCode.EQ, OpCode.POP,
      OpCode.MLOAD, OpCode.MSTORE, OpCode.SLOAD, OpCode.SSTORE, OpCode.JUMP,
      OpCode.JUMPI, OpCode.PC, OpCode.PUSH1, OpCode.IsJump]
    split
    next e heq =>
      rw [hexec] at heq
      simp at heq
    next ctx2 heq =>
      rw [hexec] at heq
      injection heq with h
      subst h
      rw [EVMInterpreter.Run]
      norm_num

/-! ## utils/crypto.go, blockchain/block.go hashing/validity, p2p/server.go replaceChain -/

/-- Mirrors `utils.MeetsTarget`: the hash is at least `difficulty` long and
its first `difficulty` characters are all '0' (Go compares the byte prefix
`hash[:difficulty]` with a string of `difficulty` zeros; on the ASCII hex
strings this hash receives, byte prefix and character prefix agree). -/
def MeetsTarget (hash : String) (difficulty : ℕ) : Bool :=
  difficulty ≤ hash.length && hash.data.take difficulty == List.replicate difficulty '0'

/-- Mirrors `Block.getTransactionsData`: "GENESIS" for an empty transaction
list, otherwise the JSON array of the per-transaction JSON strings; the JSON
marshalling layer is the abstract parameter `txJSONs`. -/
def Block.getTransactionsData (txJSONs : List Transaction → String) (b : Block) : String :=
  if b.Transactions.isEmpty then "GENESIS" else txJSONs b.Transactions

/-- Mirrors `Block.CalculateBlockHash`: SHA-256 (the abstract `sha`) of the
concatenation of index, timestamp, transaction data, previous hash and
nonce. -/
def Block.CalculateBlockHash (sha : String → String)
    (txJSONs : List Transaction → String) (b : Block) : String :=
  sha (toString b.Index ++ b.Timestamp ++ b.getTransactionsData txJSONs ++
       b.PreviousHash ++ toString b.Nonce)

/-- Mirrors `Block.IsValid`: the stored hash equals the recalculated hash
and meets the difficulty target. -/
def Block.IsValid (sha : String → String) (txJSONs : List Transaction → String)
    (difficulty : ℕ) (b : Block) : Bool :=
  b.Hash == b.CalculateBlockHash sha txJSONs && MeetsTarget b.Hash difficulty

/-- The per-block validation loop of `Server.replaceChain` for the blocks
after the first: each block must be valid at the local difficulty and its
`PreviousHash` must equal the preceding block's `Hash`. -/
def validateRest (sha : String → String) (txJSONs : List Transaction → String)
    (difficulty : ℕ) : Block → List Block → Bool
  | _, [] => true
  | prev, b :: rest =>
      b.IsValid sha txJSONs difficulty && b.PreviousHash == prev.Hash &&
      validateRest sha txJSONs difficulty b rest

/-- The inner loop of step 5 of `Server.replaceChain`: re-execute each
transaction against the evolving account state and blockchain, ignoring
(only logging) per-transaction errors. -/
def reexecTxs (sha : String → String) (txs : List Transaction)
    (p : AccountState × Blockchain) : AccountState × Blockchain :=
  txs.foldl (fun q tx =>
    let r := Transaction.Execute sha tx q.1 q.2
    (r.state, r.bc)) p

/-- Step 5 of `Server.replaceChain`: re-execute every transaction of the
given (non-genesis) blocks. -/
def reexecuteChain (sha : String → String) (blocks : List Block)
    (p : AccountState × Blockchain) : AccountState × Blockchain :=
  blocks.foldl (fun q b => reexecTxs sha b.Transactions q) p

/-- Mirrors `Server.replaceChain` as a pure function from the local
blockchain and the candidate chain to the accept decision and the resulting
blockchain: reject (local chain unchanged) unless the candidate is strictly
longer, block 0 has index 0, every block is valid at the local difficulty
and every later block links to its predecessor; on accept, install the
candidate blocks, rebuild the account state by re-executing every
non-genesis transaction from a fresh state, and clear the mempool.  The Go
code reads `newBlocks[0]` only after `len(newBlocks) > len(local) >= 0`
guarantees nonemptiness, so the `[]` arm below is unreachable. -/
def Server.replaceChain (sha : String → String)
    (txJSONs : List Transaction → String) (bc : Blockchain)
    (newBlocks : List Block) : Bool × Blockchain :=
  if newBlocks.length ≤ bc.Blocks.length then (false, bc)
  else
    match newBlocks with
    | [] => (false, bc)
    | b0 :: rest =>
        if b0.Index ≠ 0 then (false, bc)
        else if b0.IsValid sha txJSONs bc.Difficulty &&
                validateRest sha txJSONs bc.Difficulty b0 rest then
          let bc1 := { bc with Blocks := b0 :: rest,
                               AccountState := AccountState.new }
          let p := reexecuteChain sha rest (AccountState.new, bc1)
          (true, { p.2 with AccountState := p.1, PendingTxs := [] })
        else (false, bc)

theorem ExecuteContract_ok_bc_Blocks (sha : String → String) (tx : Transaction)
    (bc : Blockchain) (tx' : Transaction) (bc' : Blockchain)
    (h : tx.ExecuteContract sha bc = .ok (tx', bc')) :
    bc'.Blocks = bc.Blocks := by
  unfold Transaction.ExecuteContract at h
  split at h
  · split at h
    rename_i contract bc1 hdep
    injection h with h2
    rw [Prod.mk.injEq] at h2
    obtain ⟨h4, h5⟩ := h2
    subst h5
    have h6 : (bc.DeployContract sha tx.From tx.Data).2 = bc1 := by rw [hdep]
    rw [← h6]
    simp [Blockchain.DeployContract]
  · split at h
    · split at h
      · exact Except.noConfusion h
      · split at h
        · exact Except.noConfusion h
        · injection h with h2
          rw [Prod.mk.injEq] at h2
          obtain ⟨h4, h5⟩ := h2
          subst h5
          rfl
    · injection h with h2
      rw [Prod.mk.injEq] at h2
      obtain ⟨h4, h5⟩ := h2
      subst h5
      rfl

theorem Execute_bc_Blocks (sha : String → String) (tx : Transaction)
    (st : AccountState) (bc : Blockchain) :
    (Transaction.Execute sha tx st bc).bc.Blocks = bc.Blocks := by
  have hec : ∀ (tx' : Transaction) (bc' : Blockchain),
      tx.ExecuteContract sha bc = .ok (tx', bc') → bc'.Blocks = bc.Blocks :=
    fun tx' bc' h => ExecuteContract_ok_bc_Blocks sha tx bc tx' bc' h
  have hb2 : ∀ (gl : ℕ) (e1 : Option String),
      ((tx.executeBody2 sha bc gl e1).2.2).Blocks = bc.Blocks := by
    intro gl e1
    unfold Transaction.executeBody2
    simp only []
    split
    · split
      · split
        · rfl
        · rename_i tx' bc' h
          exact hec tx' bc' h
      · split
        · rfl
        · rename_i tx' bc' h
          exact hec tx' bc' h
    · split
      · rfl
      · rfl
  have hrs : ∀ (snaps : List (String × StorageSnapshot)) (bc0 : Blockchain),
      (bc0.revertStorages snaps).Blocks = bc0.Blocks := by
    intro snaps
    induction snaps with
    | nil => intro bc0; rfl
    | cons s rest ih =>
        intro bc0
        unfold Blockchain.revertStorages at ih ⊢
        rw [List.foldl_cons]
        rw [ih]
        split
        · rfl
        · rfl
  unfold Transaction.Execute
  simp only []
  split
  · rfl
  · split
    · rfl
    · split
      · rw [hrs]
        exact hb2 _ _
      · exact hb2 _ _

theorem reexecTxs_Blocks (sha : String → String) (txs : List Transaction)
    (p : AccountState × Blockchain) :
    ((reexecTxs sha txs p).2).Blocks = p.2.Blocks := by
  induction txs generalizing p with
  | nil => rfl
  | cons tx rest ih =>
      unfold reexecTxs at ih ⊢
      rw [List.foldl_cons]
      rw [ih]
      exact Execute_bc_Blocks sha tx p.1 p.2

theorem reexecuteChain_Blocks (sha : String → String) (blocks : List Block)
    (p : AccountState × Blockchain) :
    ((reexecuteChain sha blocks p).2).Blocks = p.2.Blocks := by
  induction blocks generalizing p with
  | nil => rfl
  | cons b rest ih =>
      unfold reexecuteChain at ih ⊢
      rw [List.foldl_cons]
      rw [ih]
      exact reexecTxs_Blocks sha b.Transactions p

theorem validateRest_iff (sha : String → String)
    (txJSONs : List Transaction → String) (d : ℕ) (prev : Block)
    (l : List Block) :
    validateRest sha txJSONs d prev l = true ↔
      ((∀ b ∈ l, b.IsValid sha txJSONs d = true) ∧
       List.Chain' (fun a b => b.PreviousHash = a.Hash) (prev :: l)) := by
  induction l generalizing prev with
  | nil => simp [validateRest]
  | cons b rest ih =>
      rw [validateRest]
      simp only [Bool.and_eq_true, beq_iff_eq, ih b, List.forall_mem_cons,
        List.chain'_cons]
      tauto

/-- C6: `Server.replaceChain` accepts a candidate chain if and only if it is
strictly longer than the local chain, its first block has index 0, every
block passes `Block.IsValid` at the local difficulty and every later block's
`PreviousHash` equals the preceding block's `Hash`; on accept the candidate
blocks are installed, and on reject the local blockchain is returned
unchanged. -/
theorem C6_replaceChain_accepts_iff_longer_and_valid (sha : String → String)
    (txJSONs : List Transaction → String) (bc : Blockchain)
    (newBlocks : List Block) :
    ((Server.replaceChain sha txJSONs bc newBlocks).1 = true ↔
       (bc.Blocks.length < newBlocks.length ∧
        (∃ b0 rest, newBlocks = b0 :: rest ∧ b0.Index = 0) ∧
        (∀ b ∈ newBlocks, b.IsValid sha txJSONs bc.Difficulty = true) ∧
        List.Chain' (fun a b => b.PreviousHash = a.Hash) newBlocks)) ∧
    ((Server.replaceChain sha txJSONs bc newBlocks).1 = true →
       (Server.replaceChain sha txJSONs bc newBlocks).2.Blocks = newBlocks) ∧
    ((Server.replaceChain sha txJSONs bc newBlocks).1 = false →
       (Server.replaceChain sha txJSONs bc newBlocks).2 = bc) := by
  unfold Server.replaceChain
  by_cases hlen : newBlocks.length ≤ bc.Blocks.length
  · rw [if_pos hlen]
    refine ⟨⟨fun hh => absurd hh (by simp), ?_⟩,
            fun hh => absurd hh (by simp), fun _ => rfl⟩
    rintro ⟨hlt, -, -, -⟩
    omega
  · rw [if_neg hlen]
    push_neg at hlen
    cases newBlocks with
    | nil => simp at hlen
    | cons b0 rest =>
      dsimp only
      by_cases hidx : b0.Index ≠ 0
      · rw [if_pos hidx]
        refine ⟨⟨fun hh => absurd hh (by simp), ?_⟩,
                fun hh => absurd hh (by simp), fun _ => rfl⟩
        rintro ⟨-, ⟨b0', rest', heq, hidx0⟩, -, -⟩
        injection heq with h1 h2
        subst h1
        exact absurd hidx0 hidx
      · rw [if_neg hidx]
        push_neg at hidx
        by_cases hval : (b0.IsValid sha txJSONs bc.Difficulty &&
            validateRest sha txJSONs bc.Difficulty b0 rest) = true
        · rw [if_pos hval]
          rw [Bool.and_eq_true] at hval
          obtain ⟨hv0, hvr⟩ := hval
          rw [validateRest_iff] at hvr
          obtain ⟨hvrest, hchain⟩ := hvr
          refine ⟨⟨fun _ => ?_, fun _ => rfl⟩, fun _ => ?_, fun hh => ?_⟩
          · exact ⟨hlen, ⟨b0, rest, rfl, hidx⟩,
                   (List.forall_mem_cons).mpr ⟨hv0, hvrest⟩, hchain⟩
          · simp [reexecuteChain_Blocks]
          · simp at hh
        · rw [if_neg hval]
          refine ⟨⟨fun hh => absurd hh (by simp), ?_⟩,
                  fun hh => absurd hh (by simp), fun _ => rfl⟩
          rintro ⟨-, -, hall, hchain⟩
          refine absurd ?_ hval
          rw [Bool.and_eq_true]
          rw [List.forall_mem_cons] at hall
          exact ⟨hall.1,
            (validateRest_iff sha txJSONs bc.Difficulty b0 rest).mpr
              ⟨hall.2, hchain⟩⟩

/-! ## rlp: encoder and Stream decoder (src/unnamed/part_000) -/

namespace RLP

/-- Mirrors `putIntLen`. -/
def putIntLen (n : ℕ) : ℕ :=
  if n < 256 then 1
  else if n < 65536 then 2
  else if n < 16777216 then 3
  else 4

/-- Mirrors `intToBytes`: the `bytes` big-endian bytes of `n`. -/
def intToBytes (n : ℕ) (bytes : ℕ) : List ℕ :=
  (List.range bytes).map (fun i => n / 256 ^ (bytes - 1 - i) % 256)

/-- Mirrors `encodeString`: a single byte below 0x80 stands for itself;
strings under 56 bytes get the `0x80 + len` header; longer ones the
`0xb7 + lenLen` header followed by the big-endian length. -/
def encodeString (b : List ℕ) : List ℕ :=
  if b.length = 1 ∧ b.headI < 0x80 then b
  else if b.length < 56 then (0x80 + b.length) :: b
  else
    let lenLen := putIntLen b.length
    (0xb7 + lenLen) :: (intToBytes b.length lenLen ++ b)

/-- Mirrors `encodeUint`: 0 is the empty string header 0x80; a value below
0x80 is its own single byte; otherwise the 8-byte big-endian form with the
leading zero bytes stripped, encoded as a string. -/
def encodeUint (i : ℕ) : List ℕ :=
  if i = 0 then [0x80]
  else if i < 0x80 then [i]
  else encodeString
    (((List.range 8).map (fun k => i / 256 ^ (7 - k) % 256)).dropWhile
      (fun b => b == 0))

/-- Mirrors `encodeList` at element type `uint64`: concatenate the element
encodings into the buffer, then prepend the short or long list header. -/
def encodeUintList (vals : List ℕ) : List ℕ :=
  let content := vals.foldl (fun acc v => acc ++ encodeUint v) []
  if content.length < 56 then (0xc0 + content.length) :: content
  else
    let lenLen := putIntLen content.length
    (0xf7 + lenLen) :: (intToBytes content.length lenLen ++ content)

/-- Mirrors `rlp.Encode` at type `[]uint64`. -/
def Encode (vals : List ℕ) : List ℕ := encodeUintList vals

/-- Mirrors `Stream`: Go `Kind` is an `int` with `Byte = 0`, `String = 1`,
`List = 2`, and the zero value of the `kind` field doubles as "no kind
cached" in `Stream.Kind`'s cache check `s.kind != 0`.  `input` is the
remaining reader data (`rlp.Decode` builds the Stream with a nil `buf`, so
`readByte` always reads from the reader). -/
structure Stream where
  input : List ℕ
  kind : ℕ
  size : ℕ
  byteval : ℕ
  kinderr : Option String
  stack : List (ℕ × ℕ)

/-- Mirrors `Stream.readByte` in the `Decode` path (nil `buf`). -/
def Stream.readByte (s : Stream) : Except String (ℕ × Stream) :=
  match s.input with
  | [] => .error "EOF"
  | b :: rest => .ok (b, { s with input := rest })

/-- Mirrors `Stream.readUint`: read `n` bytes, reject a leading zero byte
when `n > 1`, and fold big-endian. -/
def Stream.readUint (s : Stream) (n : ℕ) : Except String (ℕ × Stream) :=
  if s.input.length < n then .error "EOF"
  else
    let buf := s.input.take n
    if 1 < n ∧ buf.headI = 0 then .error "rlp: non-canonical encoding"
    else .ok (buf.foldl (fun acc b => acc * 256 + b) 0,
              { s with input := s.input.drop n })

/-- Mirrors `Stream.Kind`: return the cached kind and size when
`s.kind != 0`, otherwise read and classify the next header byte.  A single
byte below 0x80 sets `kind := Byte = 0` — a value the cache check cannot
distinguish from an empty cache.  Only a `readByte` failure is stored in
`kinderr`. -/
def Stream.Kind (s : Stream) : (ℕ × ℕ × Option String) × Stream :=
  match s.kinderr with
  | some e => ((0, 0, some e), s)
  | none =>
    if s.kind ≠ 0 then ((s.kind, s.size, none), s)
    else
      match s.readByte with
      | .error e => ((0, 0, some e), { s with kinderr := some e })
      | .ok (b, s1) =>
        if b < 0x80 then
          ((0, 0, none), { s1 with kind := 0, byteval := b, size := 0 })
        else if b < 0xb8 then
          ((1, b - 0x80, none), { s1 with kind := 1, size := b - 0x80 })
        else if b < 0xc0 then
          let lenLen := b - 0xb7
          if 8 < lenLen then ((0, 0, some "rlp: value too large"), s1)
          else
            match s1.readUint lenLen with
            | .error e => ((0, 0, some e), s1)
            | .ok (size, s2) =>
              if size < 56 then ((0, 0, some "rlp: non-canonical encoding"), s2)
              else ((1, size, none), { s2 with kind := 1, size := size })
        else if b < 0xf8 then
          ((2, b - 0xc0, none), { s1 with kind := 2, size := b - 0xc0 })
        else
          let lenLen := b - 0xf7
          if 8 < lenLen then ((0, 0, some "rlp: value too large"), s1)
          else
            match s1.readUint lenLen with
            | .error e => ((0, 0, some e), s1)
            | .ok (size, s2) =>
              if size < 56 then ((0, 0, some "rlp: non-canonical encoding"), s2)
              else ((2, size, none), { s2 with kind := 2, size := size })

/-- Mirrors `Stream.decodeUint` at target `uint64`.  NOTE: the Go code
discards the error of its own `s.Kind()` call (`kind, size, _ := s.Kind()`),
and a cached `Byte` kind answers from `byteval` without consuming input. -/
def Stream.decodeUint (s : Stream) : Except String ℕ × Stream :=
  let r := s.Kind
  let kind := r.1.1
  let size := r.1.2.1
  let s1 := r.2
  if kind = 0 then (.ok s1.byteval, { s1 with kind := 0 })
  else if kind ≠ 1 then (.error "rlp: expected string for uint", s1)
  else if size = 0 then (.ok 0, { s1 with kind := 0 })
  else if s1.input.length < size then (.error "EOF", s1)
  else
    let buf := s1.input.take size
    let s2 : Stream := { s1 with input := s1.input.drop size }
    if 1 < buf.length ∧ buf.headI = 0 then
      (.error "rlp: non-canonical encoding", s2)
    else if 8 < buf.length then (.error "rlp: uint overflow", s2)
    else (.ok (buf.foldl (fun acc b => acc * 256 + b) 0), { s2 with kind := 0 })

/-- Mirrors `Stream.decode` at element type `uint64`: `Kind` errors abort,
then `decodeUint` runs (performing its own second `Kind` call). -/
def Stream.decodeElemUint (s : Stream) : Except String ℕ × Stream :=
  let r := s.Kind
  match r.1.2.2 with
  | some e => (.error e, r.2)
  | none => r.2.decodeUint

/-- Mirrors `Stream.List`: require a `List` kind, push its position/size on
the list stack and clear the kind cache. -/
def Stream.enterList (s : Stream) : Except String Stream :=
  let r := s.Kind
  let kind := r.1.1
  let size := r.1.2.1
  let s1 := r.2
  if kind ≠ 2 then .error "rlp: expected list"
  else .ok { s1 with stack := s1.stack ++ [(0, size)], kind := 0 }

/-- The element loop of `Stream.decodeSlice`: decode elements until an
error; `io.EOF` ends the list, any other error propagates.  The Go loop has
no iteration bound; `fuel` only bounds the recursion and every call below
passes more fuel than input bytes, so the cutoff is never reached. -/
def Stream.decodeSliceLoop : ℕ → Stream → List ℕ → Except String (List ℕ) × Stream
  | 0, s, _ => (.error "rlp: fuel exhausted", s)
  | fuel + 1, s, acc =>
      match s.decodeElemUint with
      | (.error e, s1) => if e = "EOF" then (.ok acc, s1) else (.error e, s1)
      | (.ok v, s1) => Stream.decodeSliceLoop fuel s1 (acc ++ [v])

/-- Mirrors `Stream.decodeSlice` at `[]uint64`: require a list, enter it,
decode elements until EOF, then `ListEnd` (pop the list stack, failing when
it is empty). -/
def Stream.decodeSliceUint (s : Stream) : Except String (List ℕ) × Stream :=
  let r := s.Kind
  let kind := r.1.1
  let s1 := r.2
  if kind ≠ 2 then (.error "rlp: expected list for slice", s1)
  else
    match s1.enterList with
    | .error e => (.error e, s1)
    | .ok s2 =>
        match Stream.decodeSliceLoop (s2.input.length + 1) s2 [] with
        | (.ok vs, s3) =>
            if s3.stack.length = 0 then (.error "rlp: not in list", s3)
            else (.ok vs, { s3 with stack := s3.stack.dropLast })
        | (.error e, s3) => (.error e, s3)

/-- Mirrors `rlp.Decode` at target `[]uint64`: build a fresh `Stream` over
the data (kind cache zero, nil buffer) and run `decode`, which reads the
kind (aborting on error) and dispatches to `decodeSlice`. -/
def Decode (data : List ℕ) : Except String (List ℕ) :=
  let s : Stream := { input := data, kind := 0, size := 0, byteval := 0,
                      kinderr := none, stack := [] }
  let r := s.Kind
  match r.1.2.2 with
  | some e => .error e
  | none => (r.2.decodeSliceUint).1

end RLP

/-- C8 evaluation (code bug): RLP-encoding `[]uint64{1, 2}` gives
`[0xc2, 0x01, 0x02]`, but decoding that back yields `[2]`, not `[1, 2]`:
`Stream.kind` caches the current item's kind in an `int` whose zero value
`Byte` also means "nothing cached", so for a single-byte item the decoder
reads a header byte twice and drops a value. -/
theorem C8_rlp_decode_encode_drops_single_byte_values :
    RLP.Encode [1, 2] = [0xc2, 0x01, 0x02] ∧
    RLP.Decode (RLP.Encode [1, 2]) = .ok [2] ∧
    RLP.Decode (RLP.Encode [1, 2]) ≠ .ok [1, 2] := by
  have h2 : RLP.Decode (RLP.Encode [1, 2]) = .ok [2] := rfl
  refine ⟨rfl, h2, ?_⟩
  intro h
  rw [h2] at h
  injection h with h3
  simp at h3

/-! ## trie: Merkle Patricia Trie (src/trie/trie.go, node.go, hasher.go, src/unnamed/part_013) -/

/-- Trie node (`node` interface of trie/node.go): `nilN` is the Go nil
interface value; shortN and fullN carry their `nodeFlag` as the last two
arguments (dirty flag, cached hash; Go `nil` hash is `[]`). -/
inductive TNode where
  | nilN : TNode
  | valueN : List ℕ → TNode
  | hashN : List ℕ → TNode
  | shortN : List ℕ → TNode → Bool → List ℕ → TNode
  | fullN : List TNode → Bool → List ℕ → TNode

/-- Mirrors `keybytesToHex`: each key byte expands to its high and low
nibble, with the leaf terminator 16 appended. -/
def keybytesToHex (str : List ℕ) : List ℕ :=
  str.foldr (fun b acc => b / 16 :: b % 16 :: acc) [16]

/-- Mirrors `hasTerm`: the nibble list ends with the terminator 16. -/
def hasTerm (s : List ℕ) : Bool := s.getLast? == some 16

/-- The nibble-pair packing loop of `compactEncode`. -/
def packNibbles : List ℕ → List ℕ
  | a :: b :: rest => (a * 16 + b) :: packNibbles rest
  | _ => []

/-- Mirrors `compactEncode`: flag byte (terminator bit at 0x20, odd bit at
0x10 with the first nibble) followed by the packed nibble pairs. -/
def compactEncode (hex : List ℕ) : List ℕ :=
  let terminator : ℕ := if hasTerm hex then 1 else 0
  let hex := if hasTerm hex then hex.dropLast else hex
  if hex.length % 2 = 1 then
    (terminator * 32 + 16 + hex.headI) :: packNibbles hex.tail
  else
    (terminator * 32) :: packNibbles hex

/-- Mirrors `prefixLen`: length of the common prefix. -/
def prefixLen : List ℕ → List ℕ → ℕ
  | a :: as2, b :: bs => if a = b then prefixLen as2 bs + 1 else 0
  | _, _ => 0

/-- Go nil-interface test on a node. -/
def TNode.isNil : TNode → Bool
  | .nilN => true
  | _ => false

theorem sizeOf_list_pos {α : Type} [SizeOf α] (cs : List α) : 1 ≤ sizeOf cs := by
  cases cs with
  | nil => simp
  | cons a l => simp only [List.cons.sizeOf_spec]; omega

theorem sizeOf_getD_lt (cs : List TNode) (i : ℕ) :
    sizeOf (cs.getD i TNode.nilN) < 1 + sizeOf cs := by
  rcases lt_or_ge i cs.length with h | h
  · rw [List.getD_eq_getElem cs _ h]
    have := List.sizeOf_lt_of_mem (List.getElem_mem h)
    omega
  · rw [List.getD_eq_default cs _ h]
    have := sizeOf_list_pos cs
    simp only [TNode.nilN.sizeOf_spec]
    omega

/-- Mirrors `Trie.insert` (trie/trie.go).  The `prefix` argument of the Go
code is only used for database paths and log messages and is dropped; the
result triple is (dirty, node, error).  The `hashNode` arm models
`resolveHash` failing on the empty database of a fresh in-memory trie, and
the type-assertion/`default:` panics of the Go code are modelled as
errors. -/
def Trie.insert (n : TNode) (key : List ℕ) (value : TNode) :
    Bool × TNode × Option String :=
  if key.length = 0 then
    match n, value with
    | .valueN v, .valueN v2 => (decide (¬ v = v2), value, none)
    | .valueN _, _ => (false, .nilN, some "panic: value type assertion")
    | _, _ => (true, value, none)
  else
    match n with
    | .shortN nKey nVal d0 h0 =>
        let matchlen := prefixLen key nKey
        if matchlen = nKey.length then
          let r := Trie.insert nVal (key.drop matchlen) value
          if r.1 = false ∨ r.2.2.isSome then (false, .shortN nKey nVal d0 h0, r.2.2)
          else (true, .shortN nKey r.2.1 true [], none)
        else
          let r1 := Trie.insert .nilN (nKey.drop (matchlen + 1)) nVal
          if r1.2.2.isSome then (false, .nilN, r1.2.2)
          else
            let r2 := Trie.insert .nilN (key.drop (matchlen + 1)) value
            if r2.2.2.isSome then (false, .nilN, r2.2.2)
            else
              let children :=
                ((List.replicate 17 TNode.nilN).set (nKey.getD matchlen 0) r1.2.1).set
                  (key.getD matchlen 0) r2.2.1
              let branch := TNode.fullN children true []
              if matchlen = 0 then (true, branch, none)
              else (true, .shortN (key.take matchlen) branch true [], none)
    | .fullN cs d0 h0 =>
        let r := Trie.insert (cs.getD key.headI .nilN) key.tail value
        if r.1 = false ∨ r.2.2.isSome then (false, .fullN cs d0 h0, r.2.2)
        else (true, .fullN (cs.set key.headI r.2.1) true [], none)
    | .nilN => (true, .shortN key value true [], none)
    | .hashN _ => (false, .nilN, some "missing node")
    | .valueN _ => (false, .nilN, some "panic: invalid node type")
termination_by sizeOf n
decreasing_by
  · simp only [TNode.shortN.sizeOf_spec]
    omega
  · simp only [TNode.shortN.sizeOf_spec, TNode.nilN.sizeOf_spec]
    have := sizeOf_list_pos nKey
    omega
  · simp only [TNode.shortN.sizeOf_spec, TNode.nilN.sizeOf_spec]
    have := sizeOf_list_pos nKey
    omega
  · simp only [TNode.fullN.sizeOf_spec]
    have := sizeOf_getD_lt cs key.headI
    omega

/-- The single-child scan of `Trie.delete` on a fullNode: -1 when no child,
the index when exactly one child, -2 as soon as a second child is seen. -/
def singleChildPos (cs : List TNode) : ℤ :=
  (List.range 17).foldl
    (fun pos i =>
      if (cs.getD i TNode.nilN).isNil = false then
        (if pos = -1 then (i : ℤ) else -2)
      else pos)
    (-1)

/-- Mirrors `Trie.delete` (trie/trie.go); same conventions as
`Trie.insert`. -/
def Trie.delete (n : TNode) (key : List ℕ) : Bool × TNode × Option String :=
  match n with
  | .shortN nKey nVal d0 h0 =>
      let matchlen := prefixLen key nKey
      if matchlen < nKey.length then (false, .shortN nKey nVal d0 h0, none)
      else if matchlen = key.length then (true, .nilN, none)
      else
        let r := Trie.delete nVal (key.drop nKey.length)
        if r.1 = false ∨ r.2.2.isSome then (false, .shortN nKey nVal d0 h0, r.2.2)
        else
          match r.2.1 with
          | .shortN ck cv _ _ => (true, .shortN (nKey ++ ck) cv true [], none)
          | child => (true, .shortN nKey child true [], none)
  | .fullN cs d0 h0 =>
      let r := Trie.delete (cs.getD key.headI .nilN) key.tail
      if r.1 = false ∨ r.2.2.isSome then (false, .fullN cs d0 h0, r.2.2)
      else
        let cs2 := cs.set key.headI r.2.1
        let pos := singleChildPos cs2
        if 0 ≤ pos ∧ pos ≠ 16 then
          match cs2.getD pos.toNat .nilN with
          | .shortN sk sv _ _ =>
              (true, .shortN (pos.toNat :: sk) sv true [], none)
          | child => (true, .shortN [pos.toNat] child true [], none)
        else (true, .fullN cs2 true [], none)
  | .valueN _ => (true, .nilN, none)
  | .nilN => (false, .nilN, none)
  | .hashN _ => (false, .nilN, some "missing node")
termination_by sizeOf n
decreasing_by
  · simp only [TNode.shortN.sizeOf_spec]
    omega
  · simp only [TNode.fullN.sizeOf_spec]
    have := sizeOf_getD_lt cs key.headI
    omega

/-- Mirrors `Trie.TryUpdate` followed by the root assignment: convert the
key to hex nibbles; a non-empty value inserts, an empty value deletes; the
returned error is ignored and the returned node always becomes the new
root. -/
def Trie.TryUpdate (root : TNode) (key value : List ℕ) : TNode :=
  if value.length ≠ 0 then
    (Trie.insert root (keybytesToHex key) (.valueN value)).2.1
  else
    (Trie.delete root (keybytesToHex key)).2.1

/-- The header fix-up of the trie `encBuffer.EncodeList`: short or long RLP
list header in front of the encoded content. -/
def trieListWrap (content : List ℕ) : List ℕ :=
  if content.length < 56 then (0xc0 + content.length) :: content
  else
    let lenLen := RLP.putIntLen content.length
    (0xf7 + lenLen) :: (RLP.intToBytes content.length lenLen ++ content)

mutual
/-- Mirrors `node.encode` (trie/node.go): a nil child is the empty RLP
string; value and hash nodes are their bytes as an RLP string
(`encBuffer.EncodeString` calls `rlp.Encode` on the byte slice); a shortNode
is the list [compact key, value]; a fullNode is the list of its 17
children. -/
def TNode.encode : TNode → List ℕ
  | .nilN => RLP.encodeString []
  | .valueN v => RLP.encodeString v
  | .hashN h => RLP.encodeString h
  | .shortN k val _ _ =>
      trieListWrap (RLP.encodeString (compactEncode k) ++ TNode.encode val)
  | .fullN cs _ _ => trieListWrap (TNode.encodeChildren cs)

/-- The child loop of `fullNode.encode`. -/
def TNode.encodeChildren : List TNode → List ℕ
  | [] => []
  | c :: cs => TNode.encode c ++ TNode.encodeChildren cs
end

/-- Mirrors `node.cache()`: shortNode and fullNode return their
`(flags.hash, flags.dirty)`; a hashNode returns itself as cached; a
valueNode returns (nil, true).  The `nilN` arm is unreachable (the Go nil
interface has no method; every caller checks for nil first). -/
def TNode.cache : TNode → List ℕ × Bool
  | .nilN => ([], true)
  | .valueN _ => ([], true)
  | .hashN h => (h, true)
  | .shortN _ _ d h => (h, d)
  | .fullN _ d h => (h, d)

/-- Mirrors `Trie.Hash`/`Trie.hashRoot`/`hasher.hash` with `force = true`:
the empty trie hashes to `emptyRoot = Keccak256Hash(nil)`; otherwise
`hasher.hash` first consults `cache()` and returns the cached `flags.hash`
whenever the boolean it returns — which for short and full nodes is the
DIRTY flag — is true; only otherwise does it RLP-encode the root and
keccak-hash it (`force = true` skips the under-32-byte embedding case). -/
def Trie.Hash (keccak : List ℕ → List ℕ) (root : TNode) : List ℕ :=
  match root with
  | .nilN => keccak []
  | n =>
      let c := n.cache
      if c.2 then c.1 else keccak n.encode

/-- Inserting a list of (key, value) pairs into a fresh empty trie via
`Update` in the given order. -/
def Trie.insertAll (pairs : List (List ℕ × List ℕ)) : TNode :=
  pairs.foldl (fun root p => Trie.TryUpdate root p.1 p.2) .nilN

/-- A well-formed remaining trie key: hex nibbles (each at most 15) followed
by the single leaf terminator 16, as produced by `keybytesToHex` and its
suffixes along a descent. -/
def TKey (k : List ℕ) : Prop := ∃ ks, k = ks ++ [16] ∧ ∀ x ∈ ks, x ≤ 15

theorem TKey_keybytesToHex (key : List ℕ) (h : ∀ b ∈ key, b < 256) :
    TKey (keybytesToHex key) := by
  refine ⟨key.foldr (fun b acc => b / 16 :: b % 16 :: acc) [], ?_, ?_⟩
  · unfold keybytesToHex
    induction key with
    | nil => rfl
    | cons b rest ih =>
        simp only [List.foldr_cons] at *
        rw [ih (fun x hx => h x (List.mem_cons_of_mem b hx))]
        rfl
  · intro x hx
    induction key with
    | nil => simp at hx
    | cons b rest ih =>
        simp only [List.foldr_cons, List.mem_cons] at hx
        rcases hx with h1 | h1 | h1
        · subst h1
          have hb := h b (List.mem_cons_self b rest)
          omega
        · subst h1
          omega
        · exact ih (fun y hy => h y (List.mem_cons_of_mem b hy)) h1

theorem TKey.ne_nil {k : List ℕ} (h : TKey k) : k ≠ [] := by
  obtain ⟨ks, rfl, -⟩ := h
  simp

theorem TKey.length_pos {k : List ℕ} (h : TKey k) : 0 < k.length := by
  obtain ⟨ks, rfl, -⟩ := h
  simp

theorem TKey.getD_last {k : List ℕ} (h : TKey k) : k.getD (k.length - 1) 0 = 16 := by
  obtain ⟨ks, rfl, -⟩ := h
  simp [List.getD_eq_getElem?_getD, List.getElem?_append_right]

theorem TKey.getD_lt {k : List ℕ} (h : TKey k) (i : ℕ) (hi : i < k.length - 1) :
    k.getD i 0 ≤ 15 := by
  obtain ⟨ks, rfl, hks⟩ := h
  have hlen : i < ks.length := by simp at hi ⊢; omega
  rw [List.getD_eq_getElem?_getD, List.getElem?_append, if_pos hlen]
  have := hks (ks.getD i 0) (by
    rw [List.getD_eq_getElem ks _ hlen]
    exact List.getElem_mem hlen)
  rw [List.getD_eq_getElem ks _ hlen] at this
  simp [List.getElem?_eq_getElem hlen]
  exact this

theorem TKey.getD_eq16_iff {k : List ℕ} (h : TKey k) (i : ℕ) (hi : i < k.length) :
    (k.getD i 0 = 16 ↔ i = k.length - 1) := by
  constructor
  · intro h16
    by_contra hne
    have : i < k.length - 1 := by omega
    have := h.getD_lt i this
    omega
  · intro hi2
    subst hi2
    exact h.getD_last

theorem TKey.drop {k : List ℕ} (h : TKey k) (m : ℕ) (hm : m < k.length) :
    TKey (k.drop m) := by
  obtain ⟨ks, rfl, hks⟩ := h
  have hm2 : m ≤ ks.length := by simp at hm; omega
  refine ⟨ks.drop m, ?_, ?_⟩
  · rw [List.drop_append_of_le_length hm2]
  · intro x hx
    exact hks x (List.drop_subset m ks hx)

theorem TKey.take_le15 {k : List ℕ} (h : TKey k) (m : ℕ) (hm : m < k.length) :
    ∀ x ∈ k.take m, x ≤ 15 := by
  obtain ⟨ks, rfl, hks⟩ := h
  have hm2 : m ≤ ks.length := by simp at hm; omega
  intro x hx
  rw [List.take_append_of_le_length hm2] at hx
  exact hks x (List.take_subset m ks hx)

theorem prefixLen_le_left : ∀ (a b : List ℕ), prefixLen a b ≤ a.length := by
  intro a
  induction a with
  | nil => intro b; cases b <;> simp [prefixLen]
  | cons x xs ih =>
      intro b
      cases b with
      | nil => simp [prefixLen]
      | cons y ys =>
          rw [prefixLen]
          split
          · have := ih ys
            simp
            omega
          · simp

theorem prefixLen_le_right : ∀ (a b : List ℕ), prefixLen a b ≤ b.length := by
  intro a
  induction a with
  | nil => intro b; cases b <;> simp [prefixLen]
  | cons x xs ih =>
      intro b
      cases b with
      | nil => simp [prefixLen]
      | cons y ys =>
          rw [prefixLen]
          split
          · have := ih ys
            simp
            omega
          · simp

theorem prefixLen_get : ∀ (a b : List ℕ) (i : ℕ), i < prefixLen a b →
    a.getD i 0 = b.getD i 0 := by
  intro a
  induction a with
  | nil => intro b i h; cases b <;> simp [prefixLen] at h
  | cons x xs ih =>
      intro b i h
      cases b with
      | nil => simp [prefixLen] at h
      | cons y ys =>
          rw [prefixLen] at h
          by_cases hxy : x = y
          · rw [if_pos hxy] at h
            cases i with
            | zero => simpa using hxy
            | succ j =>
                simp only [List.getD_cons_succ]
                exact ih ys j (by omega)
          · rw [if_neg hxy] at h
            omega

theorem prefixLen_mismatch : ∀ (a b : List ℕ),
    prefixLen a b < a.length → prefixLen a b < b.length →
    a.getD (prefixLen a b) 0 ≠ b.getD (prefixLen a b) 0 := by
  intro a
  induction a with
  | nil => intro b h1 _; simp at h1
  | cons x xs ih =>
      intro b h1 h2
      cases b with
      | nil => simp at h2
      | cons y ys =>
          rw [prefixLen] at h1 h2 ⊢
          by_cases hxy : x = y
          · rw [if_pos hxy] at h1 h2 ⊢
            simp only [List.getD_cons_succ]
            exact ih ys (by simpa using h1) (by simpa using h2)
          · rw [if_neg hxy] at h1 h2 ⊢
            simpa using hxy

theorem getD_mem {k : List ℕ} (i : ℕ) (h : i < k.length) : k.getD i 0 ∈ k := by
  rw [List.getD_eq_getElem k _ h]
  exact List.getElem_mem h

theorem tnode_getD_set_self (cs : List TNode) (i : ℕ) (c : TNode)
    (h : i < cs.length) : (cs.set i c).getD i .nilN = c := by
  rw [List.getD_eq_getElem _ _ (by simpa using h)]
  simp [List.getElem_set_self]

theorem tnode_getD_set_other (cs : List TNode) (i j : ℕ) (c : TNode)
    (h : i ≠ j) : (cs.set i c).getD j .nilN = cs.getD j .nilN := by
  rcases lt_or_ge j cs.length with hj | hj
  · rw [List.getD_eq_getElem _ _ (by simpa using hj), List.getD_eq_getElem _ _ hj]
    simp [List.getElem_set_ne h]
  · rw [List.getD_eq_default _ _ (by simpa using hj), List.getD_eq_default _ _ hj]

theorem tnode_getD_replicate (j : ℕ) :
    (List.replicate 17 TNode.nilN).getD j .nilN = .nilN := by
  rcases lt_or_ge j 17 with hj | hj
  · rw [List.getD_eq_getElem _ _ (by simpa using hj)]
    interval_cases j <;> rfl
  · rw [List.getD_eq_default _ _ (by simpa using hj)]

/-- The content of the value slot (index 16) of a fullNode. -/
def ValSlot (c : TNode) : Prop := c = .nilN ∨ ∃ v, c = .valueN v

/-- Well-formedness of the nodes reachable in a trie built purely by
`insert` from an empty in-memory trie: no hashNode anywhere, shortNodes are
either leaves (terminator-ended key, valueNode below) or extensions
(nibble-only key, fullNode below), and fullNodes have 17 children with
values only in slot 16. -/
inductive TrieInv : TNode → Prop where
  | nil : TrieInv .nilN
  | leaf : ∀ k v d h, TKey k → TrieInv (.shortN k (.valueN v) d h)
  | ext : ∀ k cs d2 h2 d h, k ≠ [] → (∀ x ∈ k, x ≤ 15) → TrieInv (.fullN cs d2 h2) →
      TrieInv (.shortN k (.fullN cs d2 h2) d h)
  | full : ∀ cs d h, cs.length = 17 →
      (∀ i, i ≤ 15 → TrieInv (cs.getD i .nilN)) →
      (∀ i, i ≤ 15 → ∀ v, cs.getD i .nilN ≠ .valueN v) →
      ValSlot (cs.getD 16 .nilN) →
      TrieInv (.fullN cs d h)

/-- Shape of a root returned by a dirty insert: a shortNode or fullNode
with `dirty = true` and no cached hash. -/
def GoodRoot (n : TNode) : Prop :=
  (∃ k c, n = .shortN k c true []) ∨ (∃ cs, n = .fullN cs true [])

/-- Specification of `Trie.insert` on well-formed inputs: no error, the
no-op case returns the node unchanged, and a dirty result is a well-formed
dirty shortNode/fullNode (a fullNode input stays a fullNode). -/
def InsOk (n : TNode) (key : List ℕ) (v : List ℕ) : Prop :=
  (Trie.insert n key (.valueN v)).2.2 = none ∧
  ((Trie.insert n key (.valueN v)).1 = false →
     (Trie.insert n key (.valueN v)).2.1 = n) ∧
  ((Trie.insert n key (.valueN v)).1 = true →
     TrieInv (Trie.insert n key (.valueN v)).2.1 ∧
     GoodRoot (Trie.insert n key (.valueN v)).2.1 ∧
     (∀ cs d h, n = .fullN cs d h →
        ∃ cs2, (Trie.insert n key (.valueN v)).2.1 = .fullN cs2 true []))

theorem TKey.getD_le16 {k : List ℕ} (h : TKey k) (i : ℕ) (hi : i < k.length) :
    k.getD i 0 ≤ 16 := by
  by_cases h16 : i = k.length - 1
  · subst h16
    rw [h.getD_last]
  · have := h.getD_lt i (by omega)
    omega

theorem insert_nil (k : List ℕ) (value : TNode) :
    Trie.insert .nilN k value =
      if k.length = 0 then (true, value, none)
      else (true, .shortN k value true [], none) := by
  by_cases h : k.length = 0
  · rw [Trie.insert, if_pos h]
  · rw [Trie.insert, if_neg h]

theorem branch_inv (a b : ℕ) (c1 c2 : TNode)
    (hab : a ≠ b) (ha16 : a ≤ 16) (hb16 : b ≤ 16)
    (h1 : if a = 16 then ∃ w, c1 = .valueN w else TrieInv c1 ∧ ∀ w, c1 ≠ .valueN w)
    (h2 : if b = 16 then ∃ w, c2 = .valueN w else TrieInv c2 ∧ ∀ w, c2 ≠ .valueN w) :
    TrieInv (.fullN (((List.replicate 17 TNode.nilN).set a c1).set b c2) true []) := by
  have hlenr : (List.replicate 17 TNode.nilN).length = 17 := by simp
  have hlen1 : ((List.replicate 17 TNode.nilN).set a c1).length = 17 := by simp
  have hgb : (((List.replicate 17 TNode.nilN).set a c1).set b c2).getD b .nilN = c2 :=
    tnode_getD_set_self _ b c2 (by omega)
  have hga : (((List.replicate 17 TNode.nilN).set a c1).set b c2).getD a .nilN = c1 := by
    rw [tnode_getD_set_other _ b a c2 (fun hh => hab hh.symm)]
    exact tnode_getD_set_self _ a c1 (by omega)
  have hgo : ∀ j, j ≠ a → j ≠ b →
      (((List.replicate 17 TNode.nilN).set a c1).set b c2).getD j .nilN = .nilN := by
    intro j hja hjb
    rw [tnode_getD_set_other _ b j c2 (fun hh => hjb hh.symm),
        tnode_getD_set_other _ a j c1 (fun hh => hja hh.symm)]
    exact tnode_getD_replicate j
  refine TrieInv.full _ _ _ (by simp) ?_ ?_ ?_
  · intro j hj
    by_cases hjb : j = b
    · rw [hjb, hgb]
      have hx : ¬ b = 16 := by omega
      rw [if_neg hx] at h2
      exact h2.1
    · by_cases hja : j = a
      · rw [hja, hga]
        have hx : ¬ a = 16 := by omega
        rw [if_neg hx] at h1
        exact h1.1
      · rw [hgo j hja hjb]
        exact TrieInv.nil
  · intro j hj
    by_cases hjb : j = b
    · rw [hjb, hgb]
      have hx : ¬ b = 16 := by omega
      rw [if_neg hx] at h2
      exact h2.2
    · by_cases hja : j = a
      · rw [hja, hga]
        have hx : ¬ a = 16 := by omega
        rw [if_neg hx] at h1
        exact h1.2
      · rw [hgo j hja hjb]
        exact fun w hco => TNode.noConfusion hco
  · by_cases hb : b = 16
    · subst hb
      rw [hgb]
      rw [if_pos rfl] at h2
      obtain ⟨w, hw⟩ := h2
      exact Or.inr ⟨w, hw⟩
    · by_cases ha : a = 16
      · subst ha
        rw [hga]
        rw [if_pos rfl] at h1
        obtain ⟨w, hw⟩ := h1
        exact Or.inr ⟨w, hw⟩
      · rw [hgo 16 (fun hh => ha hh.symm) (fun hh => hb hh.symm)]
        exact Or.inl rfl

theorem tnode_sizeOf_pos (n : TNode) : 1 ≤ sizeOf n := by
  cases n <;> simp_arith

theorem insert_ok_aux : ∀ (sz : ℕ) (n : TNode), sizeOf n ≤ sz →
    ∀ key v, TKey key → TrieInv n → InsOk n key v := by
  intro sz
  induction sz with
  | zero =>
      intro n hsz
      have := tnode_sizeOf_pos n
      omega
  | succ sz ih =>
      intro n hsz key v hkey hinv
      have hkne : ¬ key.length = 0 := by
        have := hkey.length_pos
        omega
      cases hinv with
      | nil =>
          have he : Trie.insert .nilN key (.valueN v)
              = (true, .shortN key (.valueN v) true [], none) := by
            rw [Trie.insert]
            rw [if_neg hkne]
          refine ⟨by rw [he], by rw [he]; simp, ?_⟩
          intro _
          rw [he]
          exact ⟨TrieInv.leaf _ _ _ _ hkey, Or.inl ⟨key, _, rfl⟩,
                 fun cs d h hco => TNode.noConfusion hco⟩
      | leaf nKey v0 d0 h0 hkT =>
          by_cases hm : prefixLen key nKey = nKey.length
          · have hlen : nKey.length = key.length := by
              by_contra hne2
              have h1 := prefixLen_le_left key nKey
              have h2 := hkT.length_pos
              have hp : nKey.length - 1 < prefixLen key nKey := by omega
              have heq := prefixLen_get key nKey _ hp
              have h16 := hkT.getD_last
              rw [h16] at heq
              have hsm := hkey.getD_lt (nKey.length - 1) (by omega)
              omega
            have hdrop : key.drop (prefixLen key nKey) = [] := by
              rw [hm, hlen, List.drop_length]
            have hr : Trie.insert (.valueN v0) [] (.valueN v)
                = (decide (¬ v0 = v), .valueN v, none) := by
              rw [Trie.insert]
              simp
            by_cases hv : v0 = v
            · subst hv
              have he : Trie.insert (.shortN nKey (.valueN v0) d0 h0) key (.valueN v0)
                  = (false, .shortN nKey (.valueN v0) d0 h0, none) := by
                rw [Trie.insert]
                rw [if_neg hkne]
                dsimp only
                rw [if_pos hm, hdrop, hr]
                simp
              refine ⟨by rw [he], by rw [he]; exact fun _ => rfl, ?_⟩
              intro htr
              rw [he] at htr
              simp at htr
            · have he : Trie.insert (.shortN nKey (.valueN v0) d0 h0) key (.valueN v)
                  = (true, .shortN nKey (.valueN v) true [], none) := by
                rw [Trie.insert]
                rw [if_neg hkne]
                dsimp only
                rw [if_pos hm, hdrop, hr]
                simp [hv]
              refine ⟨by rw [he], by rw [he]; simp, ?_⟩
              intro _
              rw [he]
              exact ⟨TrieInv.leaf _ _ _ _ hkT, Or.inl ⟨nKey, _, rfl⟩,
                     fun cs d h hco => TNode.noConfusion hco⟩
          · have hmlt : prefixLen key nKey < nKey.length :=
              lt_of_le_of_ne (prefixLen_le_right key nKey) hm
            have hmk : prefixLen key nKey < key.length := by
              rcases lt_or_eq_of_le (prefixLen_le_left key nKey) with h | h
              · exact h
              · exfalso
                have hp : key.length - 1 < prefixLen key nKey := by
                  have := hkey.length_pos
                  omega
                have heq := prefixLen_get key nKey _ hp
                have h16 := hkey.getD_last
                rw [h16] at heq
                have := hkT.getD_lt (key.length - 1) (by omega)
                omega
            have hab : key.getD (prefixLen key nKey) 0 ≠ nKey.getD (prefixLen key nKey) 0 :=
              prefixLen_mismatch key nKey hmk hmlt
            obtain ⟨c1, hr1, hc1⟩ :
                ∃ c1, Trie.insert .nilN (nKey.drop (prefixLen key nKey + 1)) (.valueN v0)
                    = (true, c1, none) ∧
                  (if nKey.getD (prefixLen key nKey) 0 = 16 then ∃ w, c1 = .valueN w
                   else TrieInv c1 ∧ ∀ w, c1 ≠ .valueN w) := by
              by_cases ha : prefixLen key nKey + 1 = nKey.length
              · refine ⟨.valueN v0, ?_, ?_⟩
                · rw [insert_nil]
                  rw [if_pos (by rw [List.length_drop]; omega)]
                · rw [if_pos ((hkT.getD_eq16_iff _ hmlt).mpr (by omega))]
                  exact ⟨v0, rfl⟩
              · refine ⟨.shortN (nKey.drop (prefixLen key nKey + 1)) (.valueN v0) true [],
                  ?_, ?_⟩
                · rw [insert_nil]
                  rw [if_neg (by rw [List.length_drop]; omega)]
                · rw [if_neg (fun hco => ha (by
                    have := (hkT.getD_eq16_iff _ hmlt).mp hco
                    omega))]
                  exact ⟨TrieInv.leaf _ _ _ _ (hkT.drop _ (by omega)),
                         fun w hco => TNode.noConfusion hco⟩
            obtain ⟨c2, hr2, hc2⟩ :
                ∃ c2, Trie.insert .nilN (key.drop (prefixLen key nKey + 1)) (.valueN v)
                    = (true, c2, none) ∧
                  (if key.getD (prefixLen key nKey) 0 = 16 then ∃ w, c2 = .valueN w
                   else TrieInv c2 ∧ ∀ w, c2 ≠ .valueN w) := by
              by_cases ha : prefixLen key nKey + 1 = key.length
              · refine ⟨.valueN v, ?_, ?_⟩
                · rw [insert_nil]
                  rw [if_pos (by rw [List.length_drop]; omega)]
                · rw [if_pos ((hkey.getD_eq16_iff _ hmk).mpr (by omega))]
                  exact ⟨v, rfl⟩
              · refine ⟨.shortN (key.drop (prefixLen key nKey + 1)) (.valueN v) true [],
                  ?_, ?_⟩
                · rw [insert_nil]
                  rw [if_neg (by rw [List.length_drop]; omega)]
                · rw [if_neg (fun hco => ha (by
                    have := (hkey.getD_eq16_iff _ hmk).mp hco
                    omega))]
                  exact ⟨TrieInv.leaf _ _ _ _ (hkey.drop _ (by omega)),
                         fun w hco => TNode.noConfusion hco⟩
            have hbranch := branch_inv (nKey.getD (prefixLen key nKey) 0)
              (key.getD (prefixLen key nKey) 0) c1 c2
              (fun hh => hab hh.symm) (hkT.getD_le16 _ hmlt) (hkey.getD_le16 _ hmk)
              hc1 hc2
            by_cases hm0 : prefixLen key nKey = 0
            · have he : Trie.insert (.shortN nKey (.valueN v0) d0 h0) key (.valueN v)
                  = (true, .fullN (((List.replicate 17 TNode.nilN).set
                        (nKey.getD (prefixLen key nKey) 0) c1).set
                        (key.getD (prefixLen key nKey) 0) c2) true [], none) := by
                rw [Trie.insert]
                rw [if_neg hkne]
                dsimp only
                rw [if_neg hm, hr1]
                dsimp only
                rw [hr2]
                simp [hm0]
              refine ⟨by rw [he], by rw [he]; simp, ?_⟩
              intro _
              rw [he]
              exact ⟨hbranch, Or.inr ⟨_, rfl⟩, fun cs d h hco => TNode.noConfusion hco⟩
            · have hne2 : key.take (prefixLen key nKey) ≠ [] := by
                have hlt : (key.take (prefixLen key nKey)).length = prefixLen key nKey := by
                  rw [List.length_take]
                  omega
                intro hco
                rw [hco] at hlt
                simp at hlt
                omega
              have he : Trie.insert (.shortN nKey (.valueN v0) d0 h0) key (.valueN v)
                  = (true, .shortN (key.take (prefixLen key nKey))
                      (.fullN (((List.replicate 17 TNode.nilN).set
                        (nKey.getD (prefixLen key nKey) 0) c1).set
                        (key.getD (prefixLen key nKey) 0) c2) true []) true [], none) := by
                rw [Trie.insert]
                rw [if_neg hkne]
                dsimp only
                rw [if_neg hm, hr1]
                dsimp only
                rw [hr2]
                simp [hm0]
              refine ⟨by rw [he], by rw [he]; simp, ?_⟩
              intro _
              rw [he]
              exact ⟨TrieInv.ext _ _ _ _ _ _ hne2 (hkey.take_le15 _ hmk) hbranch,
                     Or.inl ⟨_, _, rfl⟩, fun cs d h hco => TNode.noConfusion hco⟩
      | ext nKey cs0 d2 h2 d0 h0 hne hle15 hc =>
          have hszc : sizeOf (TNode.fullN cs0 d2 h2) ≤ sz := by
            simp only [TNode.shortN.sizeOf_spec] at hsz
            omega
          by_cases hm : prefixLen key nKey = nKey.length
          · have hle : nKey.length ≤ key.length := hm ▸ prefixLen_le_left key nKey
            have hlt : nKey.length < key.length := by
              rcases lt_or_eq_of_le hle with h | h
              · exact h
              · exfalso
                have hkp := hkey.length_pos
                have hp : key.length - 1 < prefixLen key nKey := by omega
                have heq := prefixLen_get key nKey _ hp
                have h16 := hkey.getD_last
                rw [h16] at heq
                have hmem := hle15 (nKey.getD (key.length - 1) 0)
                  (getD_mem _ (by omega))
                omega
            have hdropT : TKey (key.drop (prefixLen key nKey)) :=
              hkey.drop _ (by omega)
            obtain ⟨he1, he2, he3⟩ :=
              ih (.fullN cs0 d2 h2) hszc (key.drop (prefixLen key nKey)) v hdropT hc
            cases hrd : (Trie.insert (.fullN cs0 d2 h2)
                (key.drop (prefixLen key nKey)) (.valueN v)).1 with
            | false =>
                have he : Trie.insert (.shortN nKey (.fullN cs0 d2 h2) d0 h0) key (.valueN v)
                    = (false, .shortN nKey (.fullN cs0 d2 h2) d0 h0, none) := by
                  rw [Trie.insert]
                  rw [if_neg hkne]
                  dsimp only
                  rw [if_pos hm]
                  rw [if_pos (Or.inl hrd)]
                  rw [he1]
                refine ⟨by rw [he], by rw [he]; exact fun _ => rfl, ?_⟩
                intro htr
                rw [he] at htr
                simp at htr
            | true =>
                obtain ⟨hInv, hGood, hShape⟩ := he3 hrd
                obtain ⟨cs2, hcs2⟩ := hShape cs0 d2 h2 rfl
                have he : Trie.insert (.shortN nKey (.fullN cs0 d2 h2) d0 h0) key (.valueN v)
                    = (true, .shortN nKey (.fullN cs2 true []) true [], none) := by
                  rw [Trie.insert]
                  rw [if_neg hkne]
                  dsimp only
                  rw [if_pos hm]
                  rw [if_neg (by rw [hrd, he1]; simp)]
                  rw [hcs2]
                refine ⟨by rw [he], by rw [he]; simp, ?_⟩
                intro _
                rw [he]
                rw [hcs2] at hInv
                exact ⟨TrieInv.ext _ _ _ _ _ _ hne hle15 hInv,
                       Or.inl ⟨_, _, rfl⟩, fun cs d h hco => TNode.noConfusion hco⟩
          · have hmlt : prefixLen key nKey < nKey.length :=
              lt_of_le_of_ne (prefixLen_le_right key nKey) hm
            have hmk : prefixLen key nKey < key.length := by
              rcases lt_or_eq_of_le (prefixLen_le_left key nKey) with h | h
              · exact h
              · exfalso
                have hkp := hkey.length_pos
                have hp : key.length - 1 < prefixLen key nKey := by omega
                have heq := prefixLen_get key nKey _ hp
                have h16 := hkey.getD_last
                rw [h16] at heq
                have hmem := hle15 (nKey.getD (key.length - 1) 0)
                  (getD_mem _ (by omega))
                omega
            have hab : key.getD (prefixLen key nKey) 0 ≠ nKey.getD (prefixLen key nKey) 0 :=
              prefixLen_mismatch key nKey hmk hmlt
            have ha15 : nKey.getD (prefixLen key nKey) 0 ≤ 15 :=
              hle15 _ (getD_mem _ hmlt)
            obtain ⟨c1, hr1, hc1⟩ :
                ∃ c1, Trie.insert .nilN (nKey.drop (prefixLen key nKey + 1))
                      (.fullN cs0 d2 h2)
                    = (true, c1, none) ∧
                  (if nKey.getD (prefixLen key nKey) 0 = 16 then ∃ w, c1 = .valueN w
                   else TrieInv c1 ∧ ∀ w, c1 ≠ .valueN w) := by
              by_cases ha : prefixLen key nKey + 1 = nKey.length
              · refine ⟨.fullN cs0 d2 h2, ?_, ?_⟩
                · rw [insert_nil]
                  rw [if_pos (by rw [List.length_drop]; omega)]
                · rw [if_neg (by omega)]
                  exact ⟨hc, fun w hco => TNode.noConfusion hco⟩
              · refine ⟨.shortN (nKey.drop (prefixLen key nKey + 1))
                    (.fullN cs0 d2 h2) true [], ?_, ?_⟩
                · rw [insert_nil]
                  rw [if_neg (by rw [List.length_drop]; omega)]
                · rw [if_neg (by omega)]
                  refine ⟨TrieInv.ext _ _ _ _ _ _ ?_ ?_ hc,
                          fun w hco => TNode.noConfusion hco⟩
                  · intro hco
                    have : (nKey.drop (prefixLen key nKey + 1)).length = 0 := by
                      rw [hco]
                      rfl
                    rw [List.length_drop] at this
                    omega
                  · intro x hx
                    exact hle15 x (List.drop_subset _ _ hx)
            obtain ⟨c2, hr2, hc2⟩ :
                ∃ c2, Trie.insert .nilN (key.drop (prefixLen key nKey + 1)) (.valueN v)
                    = (true, c2, none) ∧
                  (if key.getD (prefixLen key nKey) 0 = 16 then ∃ w, c2 = .valueN w
                   else TrieInv c2 ∧ ∀ w, c2 ≠ .valueN w) := by
              by_cases ha : prefixLen key nKey + 1 = key.length
              · refine ⟨.valueN v, ?_, ?_⟩
                · rw [insert_nil]
                  rw [if_pos (by rw [List.length_drop]; omega)]
                · rw [if_pos ((hkey.getD_eq16_iff _ hmk).mpr (by omega))]
                  exact ⟨v, rfl⟩
              · refine ⟨.shortN (key.drop (prefixLen key nKey + 1)) (.valueN v) true [],
                  ?_, ?_⟩
                · rw [insert_nil]
                  rw [if_neg (by rw [List.length_drop]; omega)]
                · rw [if_neg (fun hco => ha (by
                    have := (hkey.getD_eq16_iff _ hmk).mp hco
                    omega))]
                  exact ⟨TrieInv.leaf _ _ _ _ (hkey.drop _ (by omega)),
                         fun w hco => TNode.noConfusion hco⟩
            have hbranch := branch_inv (nKey.getD (prefixLen key nKey) 0)
              (key.getD (prefixLen key nKey) 0) c1 c2
              (fun hh => hab hh.symm) (by omega) (hkey.getD_le16 _ hmk)
              hc1 hc2
            by_cases hm0 : prefixLen key nKey = 0
            · have he : Trie.insert (.shortN nKey (.fullN cs0 d2 h2) d0 h0) key (.valueN v)
                  = (true, .fullN (((List.replicate 17 TNode.nilN).set
                        (nKey.getD (prefixLen key nKey) 0) c1).set
                        (key.getD (prefixLen key nKey) 0) c2) true [], none) := by
                rw [Trie.insert]
                rw [if_neg hkne]
                dsimp only
                rw [if_neg hm, hr1]
                dsimp only
                rw [hr2]
                simp [hm0]
              refine ⟨by rw [he], by rw [he]; simp, ?_⟩
              intro _
              rw [he]
              exact ⟨hbranch, Or.inr ⟨_, rfl⟩, fun cs d h hco => TNode.noConfusion hco⟩
            · have hne2 : key.take (prefixLen key nKey) ≠ [] := by
                have hlt2 : (key.take (prefixLen key nKey)).length = prefixLen key nKey := by
                  rw [List.length_take]
                  omega
                intro hco
                rw [hco] at hlt2
                simp at hlt2
                omega
              have he : Trie.insert (.shortN nKey (.fullN cs0 d2 h2) d0 h0) key (.valueN v)
                  = (true, .shortN (key.take (prefixLen key nKey))
                      (.fullN (((List.replicate 17 TNode.nilN).set
                        (nKey.getD (prefixLen key nKey) 0) c1).set
                        (key.getD (prefixLen key nKey) 0) c2) true []) true [], none) := by
                rw [Trie.insert]
                rw [if_neg hkne]
                dsimp only
                rw [if_neg hm, hr1]
                dsimp only
                rw [hr2]
                simp [hm0]
              refine ⟨by rw [he], by rw [he]; simp, ?_⟩
              intro _
              rw [he]
              exact ⟨TrieInv.ext _ _ _ _ _ _ hne2 (hkey.take_le15 _ hmk) hbranch,
                     Or.inl ⟨_, _, rfl⟩, fun cs d h hco => TNode.noConfusion hco⟩
      | full cs d0 h0 hlen17 hslots hnoval hval16 =>
          obtain ⟨x, rest, rfl⟩ : ∃ x rest, key = x :: rest := by
            cases key with
            | nil => simp at hkne
            | cons x rest => exact ⟨x, rest, rfl⟩
          by_cases hk1 : (x :: rest).length = 1
          · have hrest : rest = [] := by
              simp at hk1
              exact hk1
            subst hrest
            have hx16 : x = 16 := by
              obtain ⟨ks, hks, -⟩ := hkey
              cases ks with
              | nil => simpa using hks
              | cons a t =>
                  have := congrArg List.length hks
                  simp at this
            subst hx16
            have hset : TrieInv (TNode.fullN (cs.set 16 (.valueN v)) true []) := by
              refine TrieInv.full _ _ _ (by rw [List.length_set]; exact hlen17) ?_ ?_ ?_
              · intro j hj
                rw [tnode_getD_set_other cs 16 j _ (by omega)]
                exact hslots j hj
              · intro j hj
                rw [tnode_getD_set_other cs 16 j _ (by omega)]
                exact hnoval j hj
              · rw [tnode_getD_set_self cs 16 _ (by omega)]
                exact Or.inr ⟨v, rfl⟩
            rcases hval16 with hnil | ⟨v0, hv0⟩
            · have he : Trie.insert (.fullN cs d0 h0) [16] (.valueN v)
                  = (true, .fullN (cs.set 16 (.valueN v)) true [], none) := by
                rw [Trie.insert]
                rw [if_neg hkne]
                dsimp only
                dsimp only [List.headI, List.tail_cons]
                rw [hnil, insert_nil]
                simp
              refine ⟨by rw [he], by rw [he]; simp, ?_⟩
              intro _
              rw [he]
              exact ⟨hset, Or.inr ⟨_, rfl⟩,
                     fun cs' d' h' hco => ⟨cs.set 16 (.valueN v), rfl⟩⟩
            · have hr : Trie.insert (.valueN v0) [] (.valueN v)
                  = (decide (¬ v0 = v), .valueN v, none) := by
                rw [Trie.insert]
                simp
              by_cases hv : v0 = v
              · subst hv
                have he : Trie.insert (.fullN cs d0 h0) [16] (.valueN v0)
                    = (false, .fullN cs d0 h0, none) := by
                  rw [Trie.insert]
                  rw [if_neg hkne]
                  dsimp only
                  dsimp only [List.headI, List.tail_cons]
                  rw [hv0, hr]
                  simp
                refine ⟨by rw [he], by rw [he]; exact fun _ => rfl, ?_⟩
                intro htr
                rw [he] at htr
                simp at htr
              · have he : Trie.insert (.fullN cs d0 h0) [16] (.valueN v)
                    = (true, .fullN (cs.set 16 (.valueN v)) true [], none) := by
                  rw [Trie.insert]
                  rw [if_neg hkne]
                  dsimp only
                  dsimp only [List.headI, List.tail_cons]
                  rw [hv0, hr]
                  simp [hv]
                refine ⟨by rw [he], by rw [he]; simp, ?_⟩
                intro _
                rw [he]
                exact ⟨hset, Or.inr ⟨_, rfl⟩,
                       fun cs' d' h' hco => ⟨cs.set 16 (.valueN v), rfl⟩⟩
          · have hrlen : rest.length ≠ 0 := by
              intro h0len
              exact hk1 (by simp [h0len])
            have hx15 : x ≤ 15 := by
              have := hkey.getD_lt 0 (by simp; omega)
              simpa using this
            have hrestT : TKey rest := by
              have := hkey.drop 1 (by simp; omega)
              simpa using this
            have hszc : sizeOf (cs.getD x .nilN) ≤ sz := by
              have h1 := sizeOf_getD_lt cs x
              simp only [TNode.fullN.sizeOf_spec] at hsz
              omega
            obtain ⟨he1, he2, he3⟩ :=
              ih (cs.getD x .nilN) hszc rest v hrestT (hslots x hx15)
            cases hrd : (Trie.insert (cs.getD x .nilN) rest (.valueN v)).1 with
            | false =>
                have he : Trie.insert (.fullN cs d0 h0) (x :: rest) (.valueN v)
                    = (false, .fullN cs d0 h0, none) := by
                  rw [Trie.insert]
                  rw [if_neg hkne]
                  dsimp only
                  dsimp only [List.headI, List.tail_cons]
                  rw [if_pos (Or.inl hrd)]
                  rw [he1]
                refine ⟨by rw [he], by rw [he]; exact fun _ => rfl, ?_⟩
                intro htr
                rw [he] at htr
                simp at htr
            | true =>
                obtain ⟨hInv, hGood, -⟩ := he3 hrd
                have he : Trie.insert (.fullN cs d0 h0) (x :: rest) (.valueN v)
                    = (true, .fullN
                        (cs.set x (Trie.insert (cs.getD x .nilN) rest (.valueN v)).2.1)
                        true [], none) := by
                  rw [Trie.insert]
                  rw [if_neg hkne]
                  dsimp only
                  dsimp only [List.headI, List.tail_cons]
                  rw [if_neg (by rw [hrd, he1]; simp)]
                refine ⟨by rw [he], by rw [he]; simp, ?_⟩
                intro _
                rw [he]
                have hsetInv : TrieInv (TNode.fullN
                    (cs.set x (Trie.insert (cs.getD x .nilN) rest (.valueN v)).2.1)
                    true []) := by
                  refine TrieInv.full _ _ _ (by rw [List.length_set]; exact hlen17) ?_ ?_ ?_
                  · intro j hj
                    by_cases hjx : j = x
                    · rw [hjx, tnode_getD_set_self cs x _ (by omega)]
                      exact hInv
                    · rw [tnode_getD_set_other cs x j _ (fun hh => hjx hh.symm)]
                      exact hslots j hj
                  · intro j hj
                    by_cases hjx : j = x
                    · rw [hjx, tnode_getD_set_self cs x _ (by omega)]
                      rcases hGood with ⟨k1, c1, hg⟩ | ⟨cs1, hg⟩ <;>
                        · rw [hg]
                          exact fun w hco => TNode.noConfusion hco
                    · rw [tnode_getD_set_other cs x j _ (fun hh => hjx hh.symm)]
                      exact hnoval j hj
                  · rw [tnode_getD_set_other cs x 16 _ (by omega)]
                    exact hval16
                exact ⟨hsetInv, Or.inr ⟨_, rfl⟩,
                       fun cs' d' h' hco =>
                         ⟨cs.set x (Trie.insert (cs.getD x .nilN) rest (.valueN v)).2.1, rfl⟩⟩

theorem insert_ok (n : TNode) (key : List ℕ) (v : List ℕ)
    (hkey : TKey key) (hinv : TrieInv n) : InsOk n key v :=
  insert_ok_aux (sizeOf n) n le_rfl key v hkey hinv

theorem TryUpdate_good (root : TNode) (key value : List ℕ)
    (hb : ∀ b ∈ key, b < 256) (hv : value ≠ []) (hinv : TrieInv root) :
    TrieInv (Trie.TryUpdate root key value) ∧
    (GoodRoot root → GoodRoot (Trie.TryUpdate root key value)) ∧
    (root = .nilN → GoodRoot (Trie.TryUpdate root key value)) := by
  have hkT := TKey_keybytesToHex key hb
  obtain ⟨h1, h2, h3⟩ := insert_ok root (keybytesToHex key) value hkT hinv
  have hupd : Trie.TryUpdate root key value
      = (Trie.insert root (keybytesToHex key) (.valueN value)).2.1 := by
    unfold Trie.TryUpdate
    rw [if_pos (fun hco => hv (List.length_eq_zero.mp hco))]
  rw [hupd]
  cases htop : (Trie.insert root (keybytesToHex key) (.valueN value)).1 with
  | true =>
      obtain ⟨hInv, hGood, -⟩ := h3 htop
      exact ⟨hInv, fun _ => hGood, fun _ => hGood⟩
  | false =>
      rw [h2 htop]
      refine ⟨hinv, fun hg => hg, ?_⟩
      intro hnil
      exfalso
      rw [hnil] at htop
      rw [insert_nil] at htop
      rw [if_neg (by have := hkT.length_pos; omega)] at htop
      simp at htop

theorem insertAll_good_aux : ∀ (pairs : List (List ℕ × List ℕ)) (root : TNode),
    (∀ p ∈ pairs, (∀ b ∈ p.1, b < 256) ∧ p.2 ≠ []) →
    TrieInv root → GoodRoot root →
    TrieInv (pairs.foldl (fun r p => Trie.TryUpdate r p.1 p.2) root) ∧
    GoodRoot (pairs.foldl (fun r p => Trie.TryUpdate r p.1 p.2) root) := by
  intro pairs
  induction pairs with
  | nil =>
      intro root _ h1 h2
      exact ⟨h1, h2⟩
  | cons p rest ih =>
      intro root hgood h1 h2
      rw [List.foldl_cons]
      obtain ⟨ha, hb2, -⟩ := TryUpdate_good root p.1 p.2
        (hgood p (by simp)).1 (hgood p (by simp)).2 h1
      exact ih _ (fun q hq => hgood q (List.mem_cons_of_mem p hq)) ha (hb2 h2)

theorem insertAll_nonempty_good (pairs : List (List ℕ × List ℕ))
    (hne : pairs ≠ [])
    (hgood : ∀ p ∈ pairs, (∀ b ∈ p.1, b < 256) ∧ p.2 ≠ []) :
    GoodRoot (Trie.insertAll pairs) := by
  cases pairs with
  | nil => exact absurd rfl hne
  | cons p rest =>
      unfold Trie.insertAll
      rw [List.foldl_cons]
      obtain ⟨ha, -, hc⟩ := TryUpdate_good .nilN p.1 p.2
        (hgood p (by simp)).1 (hgood p (by simp)).2 TrieInv.nil
      exact (insertAll_good_aux rest _
        (fun q hq => hgood q (List.mem_cons_of_mem p hq)) ha (hc rfl)).2

theorem Hash_GoodRoot (keccak : List ℕ → List ℕ) (root : TNode)
    (h : GoodRoot root) : Trie.Hash keccak root = [] := by
  rcases h with ⟨k, c, rfl⟩ | ⟨cs, rfl⟩ <;> rfl

/-- C5: inserting a set of (key, value) pairs (non-empty values, byte keys)
into a fresh empty trie via Update yields the same root from Hash() for any
two insertion orders.  In this code the property holds because insert marks
every node it builds dirty with no cached hash, and `hasher.hash` returns
the cached `flags.hash` whenever the boolean returned by `cache()` — which
for short and full nodes is the DIRTY flag — is true: the root of any
freshly built non-empty trie therefore hashes to the nil hash `[]`,
identically in both orders (and the empty order-pair gives `emptyRoot`
twice), so the root is a function of the key/value set alone. -/
theorem C5_trie_hash_insertion_order_independent (keccak : List ℕ → List ℕ)
    (pairs1 pairs2 : List (List ℕ × List ℕ))
    (hperm : pairs1.Perm pairs2)
    (hgood : ∀ p ∈ pairs1, (∀ b ∈ p.1, b < 256) ∧ p.2 ≠ []) :
    Trie.Hash keccak (Trie.insertAll pairs1)
      = Trie.Hash keccak (Trie.insertAll pairs2) := by
  cases pairs1 with
  | nil =>
      have h0 : pairs2.length = 0 := by
        have := hperm.length_eq
        simpa using this.symm
      rw [List.length_eq_zero.mp h0]
  | cons p rest =>
      have h2ne : pairs2 ≠ [] := by
        intro hco
        rw [hco] at hperm
        have := hperm.length_eq
        simp at this
      have hgood2 : ∀ q ∈ pairs2, (∀ b ∈ q.1, b < 256) ∧ q.2 ≠ [] := by
        intro q hq
        exact hgood q (hperm.symm.subset hq)
      rw [Hash_GoodRoot keccak _ (insertAll_nonempty_good _ (by simp) hgood),
          Hash_GoodRoot keccak _ (insertAll_nonempty_good _ h2ne hgood2)]

/-- Witness for C5 at a concrete input: the two orders of inserting
([1] maps to [5]) and ([2] maps to [6]) give the same root hash. -/
theorem C5_trie_hash_insertion_order_independent_witness :
    Trie.Hash (fun l => 0 :: l) (Trie.insertAll [([1], [5]), ([2], [6])])
      = Trie.Hash (fun l => 0 :: l) (Trie.insertAll [([2], [6]), ([1], [5])]) :=
  C5_trie_hash_insertion_order_independent (fun l => 0 :: l) _ _
    (by decide) (by decide)
